import Mathlib

/-!
Verification of the Dublin-bikes simulation core.

The repository has two script variants, `dublin_bikes.py` and
`03783821_16201212_MIS40550.py`.  Station state lives in per-node
attribute dictionaries of a networkx graph; we embed it as a total map
`ℕ → Station` updated pointwise with `Function.update`.  Centrality
values (Python floats) are embedded as rationals, and the Python heaps
(built completely before any pop, never pushed to afterwards) are
embedded as lexicographically sorted lists whose head is the next pop.
Definitions suffixed `_db` come from `dublin_bikes.py`, unsuffixed or
`_q`-suffixed ones shared with / from the MIS40550 variant.
-/

/-- Per-station mutable state: the node attributes `total`, `spaces`,
`full`, `empty` kept on each graph node. -/
structure Station where
  total : ℤ
  spaces : ℤ
  full : ℕ
  empty : ℕ
  deriving DecidableEq

/-- `check_station(graph, node, change, add, person)` — identical in both
variants.  Add mode: if `spaces >= change`, decrement `spaces`; a person
filling the station to zero spaces bumps `full`.  Remove mode: if
`total - spaces >= change`, increment `spaces`; a person draining the
station to zero bikes bumps `empty`.  Returns the success flag and the
new graph. -/
def check_station (g : ℕ → Station) (node : ℕ) (change : ℤ) (add person : Bool) :
    Bool × (ℕ → Station) :=
  let s := g node
  let spare_bikes := s.total - s.spaces
  if add then
    if change ≤ s.spaces then
      let s1 : Station := { s with spaces := s.spaces - change }
      let s2 : Station :=
        if person then
          (if s1.spaces = 0 then { s1 with full := s1.full + 1 } else s1)
        else s1
      (true, Function.update g node s2)
    else
      (false, g)
  else
    if change ≤ spare_bikes then
      let s1 : Station := { s with spaces := s.spaces + change }
      let s2 : Station :=
        if person then
          (if s.total - s1.spaces = 0 then { s1 with empty := s1.empty + 1 } else s1)
        else s1
      (true, Function.update g node s2)
    else
      (false, g)

/-- `add_bikes(graph, stations_list, bike_num, person)` from
`dublin_bikes.py`: linear scan over a `(key, node)` list dropping bikes
at each station with room.  We also return the final value of the loop
variable `bike_num` (the bikes still undelivered) next to the Python
return value (`True` on the early return, `None`≈`false` when the loop
ends). -/
def add_bikes : (ℕ → Station) → List (ℚ × ℕ) → ℤ → Bool → Bool × ℤ × (ℕ → Station)
  | g, [], bike_num, _ => (false, bike_num, g)
  | g, stn :: rest, bike_num, person =>
    let spaces := (g stn.2).spaces
    if bike_num ≤ 0 then (true, bike_num, g)
    else if spaces = 0 then add_bikes g rest bike_num person
    else if spaces ≤ bike_num then
      let s := g stn.2
      let g1 := Function.update g stn.2
        (if person then { s with spaces := 0, full := s.full + 1 } else { s with spaces := 0 })
      add_bikes g1 rest (bike_num - spaces) person
    else
      let s := g stn.2
      add_bikes (Function.update g stn.2 { s with spaces := s.spaces - bike_num }) rest 0 person

/-- `move_bikes(G, stations_list, bike_num, person)` from the MIS40550
variant: same scan as `add_bikes` but it bumps `empty` unconditionally
whenever it fills a station to zero spaces, and returns `False` when the
loop ends. -/
def move_bikes : (ℕ → Station) → List (ℚ × ℕ) → ℤ → Bool → Bool × ℤ × (ℕ → Station)
  | g, [], bike_num, _ => (false, bike_num, g)
  | g, stn :: rest, bike_num, person =>
    let spaces := (g stn.2).spaces
    if bike_num ≤ 0 then (true, bike_num, g)
    else if spaces = 0 then move_bikes g rest bike_num person
    else if spaces ≤ bike_num then
      let s := g stn.2
      let s1 : Station := { s with spaces := 0, empty := s.empty + 1 }
      let g1 := Function.update g stn.2
        (if person then { s1 with full := s1.full + 1 } else s1)
      move_bikes g1 rest (bike_num - spaces) person
    else
      let s := g stn.2
      move_bikes (Function.update g stn.2 { s with spaces := s.spaces - bike_num }) rest 0 person

/-- `add_bikes(G, stn_q, bike_num, person)` from the MIS40550 variant:
pops stations off a priority queue (embedded as the sorted list of its
elements) and drops bikes at each station with room.  Returns the
Python return value, the remaining queue, and the new graph.  Note the
pop happens before the `bike_num <= 0` early return, so that return
consumes a queue element. -/
def add_bikes_q : (ℕ → Station) → List (ℤ × ℕ) → ℤ → Bool → Bool × List (ℤ × ℕ) × (ℕ → Station)
  | g, [], _, _ => (false, [], g)
  | g, stn :: rest, bike_num, person =>
    let spaces := (g stn.2).spaces
    if bike_num ≤ 0 then (true, rest, g)
    else if spaces = 0 then add_bikes_q g rest bike_num person
    else if spaces ≤ bike_num then
      let s := g stn.2
      let g1 := Function.update g stn.2
        (if person then { s with spaces := 0, full := s.full + 1 } else { s with spaces := 0 })
      add_bikes_q g1 rest (bike_num - spaces) person
    else
      let s := g stn.2
      add_bikes_q (Function.update g stn.2 { s with spaces := s.spaces - bike_num }) rest 0 person

/-- Python `int(q)` on a float: truncation toward zero. -/
def pyInt (q : ℚ) : ℤ := if q < 0 then ⌈q⌉ else ⌊q⌋

/-- `bikes_init(G)`: every station gets `total = int(10*in_cent)*10`,
`spaces = total/2` (exact: `total` is a multiple of 10), and zeroed
counters.  `cent` is the immutable `in_cent` node attribute. -/
def bikes_init (cent : ℕ → ℚ) : List ℕ → (ℕ → Station) → (ℕ → Station)
  | [], g => g
  | u :: rest, g =>
    let t : ℤ := pyInt (10 * cent u) * 10
    bikes_init cent rest
      (Function.update g u { total := t, spaces := t / 2, full := 0, empty := 0 })

/-- Lexicographic order on the `(key, node)` tuples Python's `heapq`
compares. -/
def pqLe (a b : ℚ × ℕ) : Prop := a.1 < b.1 ∨ (a.1 = b.1 ∧ a.2 ≤ b.2)

instance : DecidableRel pqLe := fun a b => inferInstanceAs (Decidable (_ ∨ _))

/-- Reverse order, for Python's `sorted(l, reverse=True)`. -/
def pqGe (a b : ℚ × ℕ) : Prop := pqLe b a

instance : DecidableRel pqGe := fun a b => inferInstanceAs (Decidable (pqLe b a))

/-- Lexicographic order on `(ℤ, node)` tuples (the MIS40550 `fullq`
keys are bike counts). -/
def zqLe (a b : ℤ × ℕ) : Prop := a.1 < b.1 ∨ (a.1 = b.1 ∧ a.2 ≤ b.2)

instance : DecidableRel zqLe := fun a b => inferInstanceAs (Decidable (_ ∨ _))

/-- A `heapq` heap that is fully built before the first pop and never
pushed to afterwards yields its elements in sorted order, so we embed
the heap as the sorted list of its entries; popping takes the head. -/
def heapOf (l : List (ℚ × ℕ)) : List (ℚ × ℕ) := List.insertionSort pqLe l

/-- The MIS40550 `fullq` heap, keyed by bikes present. -/
def heapOfZ (l : List (ℤ × ℕ)) : List (ℤ × ℕ) := List.insertionSort zqLe l

/-- Python `sorted(l, reverse=True)` on `(key, node)` tuples. -/
def sortedRev (l : List (ℚ × ℕ)) : List (ℚ × ℕ) := List.insertionSort pqGe l

/-- The source queue of `bike_trucks` in `dublin_bikes.py`: stations
whose `empty` counter is at least 1 keyed by negated centrality. -/
def emptyq_db (cent : ℕ → ℚ) (g : ℕ → Station) (nodes : List ℕ) : List (ℚ × ℕ) :=
  heapOf ((nodes.filter (fun n => decide (1 ≤ (g n).empty))).map (fun n => (-(cent n), n)))

/-- The source queue of `bike_trucks` in the MIS40550 variant: stations
with `spaces <= total // 10` keyed by negated centrality.  (`//` on the
nonnegative values involved agrees with `ℤ` division.) -/
def emptyq_mis (cent : ℕ → ℚ) (g : ℕ → Station) (nodes : List ℕ) : List (ℚ × ℕ) :=
  heapOf ((nodes.filter (fun n => decide ((g n).spaces ≤ (g n).total / 10))).map
    (fun n => (-(cent n), n)))

/-- The deposit queue of `bike_trucks` in the MIS40550 variant: every
station keyed by bikes present (fewest bikes first). -/
def fullq_mis (g : ℕ → Station) (nodes : List ℕ) : List (ℤ × ℕ) :=
  heapOfZ (nodes.map (fun n => ((g n).total - (g n).spaces, n)))

/-- The run loop of `bike_trucks` in `dublin_bikes.py`: each run pops
the top source station, takes `total*num//100` bikes from it via
`check_station` (remove mode, `person=False`), and on success scatters
them over `sorted(central_list, reverse=True)` via `add_bikes` with
`person=False`.  A failed take skips the run. -/
def truck_runs_db (central_list : List (ℚ × ℕ)) (num : ℤ) :
    ℕ → List (ℚ × ℕ) → (ℕ → Station) → (ℕ → Station)
  | 0, _, g => g
  | runs + 1, [], g => truck_runs_db central_list num runs [] g
  | runs + 1, station :: q, g =>
    let bikes : ℤ := ((g station.2).total * num) / 100
    let res := check_station g station.2 bikes false false
    if res.1 then
      truck_runs_db central_list num runs q (add_bikes res.2 (sortedRev central_list) bikes false).2.2
    else
      truck_runs_db central_list num runs q res.2

/-- `bike_trucks(graph, runs, num, central_list)` from `dublin_bikes.py`. -/
def bike_trucks_db (cent : ℕ → ℚ) (g : ℕ → Station) (nodes : List ℕ)
    (runs : ℕ) (num : ℤ) (central_list : List (ℚ × ℕ)) : ℕ → Station :=
  truck_runs_db central_list num runs (emptyq_db cent g nodes) g

/-- The run loop of `bike_trucks` in the MIS40550 variant: like the
`dublin_bikes.py` loop but deposits pop the persistent `fullq` queue
(via `add_bikes_q`), which is threaded through the runs. -/
def truck_runs_mis (num : ℤ) :
    ℕ → List (ℚ × ℕ) → List (ℤ × ℕ) → (ℕ → Station) → (ℕ → Station)
  | 0, _, _, g => g
  | runs + 1, [], fq, g => truck_runs_mis num runs [] fq g
  | runs + 1, station :: q, fq, g =>
    let bikes : ℤ := ((g station.2).total * num) / 100
    let res := check_station g station.2 bikes false false
    if res.1 then
      let out := add_bikes_q res.2 fq bikes false
      truck_runs_mis num runs q out.2.1 out.2.2
    else
      truck_runs_mis num runs q fq res.2

/-- `bike_trucks(G, runs, num, central_list)` from the MIS40550 variant
(`central_list` is unused there beyond being passed in). -/
def bike_trucks_mis (cent : ℕ → ℚ) (g : ℕ → Station) (nodes : List ℕ)
    (runs : ℕ) (num : ℤ) : ℕ → Station :=
  truck_runs_mis num runs (emptyq_mis cent g nodes) (fullq_mis g nodes) g

/-- `random.randrange(a, b)` driven by an oracle value `k`: some element
of `[a, b)` (every element is hit as `k` varies). -/
def randrange (a b k : ℕ) : ℕ := a + k % (b - a)

/-- `get_centre_count(cent_list, cent_ratio, am)` from the MIS40550
variant: the boundary index of the central region. -/
def get_centre_count (cent_list : List (ℚ × ℕ)) (cent_ratio : ℕ) (am : Bool) : ℕ :=
  let central_count := cent_list.length / cent_ratio
  if am then central_count else cent_list.length - central_count

/-- The random draws consumed by one rider iteration: the uniform
threshold `r` and the oracle behind the one `randrange` call the taken
branch makes. -/
structure RiderDraw where
  r : ℚ
  k : ℕ

/-- The station targeted by a rider of `bike_flow` (MIS40550): the
ranking entry at a random central position when `r` is at most the
boundary rank-key, else at a random position in
`[central_count+1, len-1)`. -/
def bf_target (clist : List (ℚ × ℕ)) (ccount : ℕ) (r : ℚ) (k : ℕ) : ℕ :=
  if r ≤ (clist.getD ccount (0, 0)).1 then
    (clist.getD (randrange 0 ccount k) (0, 0)).2
  else
    (clist.getD (randrange (ccount + 1) (clist.length - 1) k) (0, 0)).2

/-- The node targeted by a rider of `am_cycle` (`dublin_bikes.py`): the
drawn position itself is used as the node id (`node =
random.randrange(...)`), not the ranking entry at that position. -/
def am_target (clist : List (ℚ × ℕ)) (ccount : ℕ) (r : ℚ) (k : ℕ) : ℕ :=
  if r ≤ (clist.getD ccount (0, 0)).1 then
    randrange 0 ccount k
  else
    randrange (ccount + 1) (clist.length - 1) k

/-- The closing loop of each `am_cycle` rider (`dublin_bikes.py`): walk
the neighbours of the chosen node, attempting to remove `bike_count`
bikes (`check_station` remove mode, `person=True`) at each, stopping at
the first success; no effect when every neighbour fails. -/
def neigh_remove (bc : ℤ) : (ℕ → Station) → List ℕ → Bool × (ℕ → Station)
  | g, [] => (false, g)
  | g, n :: rest =>
    let res := check_station g n bc false true
    if res.1 then (true, res.2) else neigh_remove bc res.2 rest

/-- One rider iteration of `am_cycle` (`dublin_bikes.py`).  Returns the
number of bikes actually deposited, whether the neighbour withdrawal
succeeded, and the new graph.  Central branch: try the chosen node, on
failure scan `central_list` with `add_bikes`; peripheral branch: try the
chosen node, no fallback.  Either way the neighbour withdrawal loop
runs on the chosen node. -/
def am_rider (clist : List (ℚ × ℕ)) (ccount : ℕ) (bc : ℤ) (neigh : ℕ → List ℕ)
    (g : ℕ → Station) (d : RiderDraw) : ℤ × Bool × (ℕ → Station) :=
  if d.r ≤ (clist.getD ccount (0, 0)).1 then
    let node := randrange 0 ccount d.k
    let res := check_station g node bc true true
    let dep : ℤ × (ℕ → Station) :=
      if res.1 then (bc, res.2)
      else
        let fb := add_bikes res.2 clist bc true
        (bc - fb.2.1, fb.2.2)
    let wd := neigh_remove bc dep.2 (neigh node)
    (dep.1, wd.1, wd.2)
  else
    let node := randrange (ccount + 1) (clist.length - 1) d.k
    let res := check_station g node bc true true
    let dep : ℤ × (ℕ → Station) := if res.1 then (bc, res.2) else (0, res.2)
    let wd := neigh_remove bc dep.2 (neigh node)
    (dep.1, wd.1, wd.2)

/-- The rider loop of `am_cycle` (`dublin_bikes.py`), one `RiderDraw`
per person, also collecting the (deposited, withdrawal-succeeded) trace
of the riders in order. -/
def am_cycle_run (clist : List (ℚ × ℕ)) (ccount : ℕ) (bc : ℤ) (neigh : ℕ → List ℕ) :
    (ℕ → Station) → List RiderDraw → List (ℤ × Bool) × (ℕ → Station)
  | g, [] => ([], g)
  | g, d :: ds =>
    let r := am_rider clist ccount bc neigh g d
    let rest := am_cycle_run clist ccount bc neigh r.2.2 ds
    ((r.1, r.2.1) :: rest.1, rest.2)

/-- One rider iteration of `bike_flow` (MIS40550).  Central branch: try
the ranking entry at the drawn central position, on failure scan
`central_list` with `move_bikes`; peripheral branch: try the entry at
the drawn peripheral position, on failure scan
`sorted(central_list, reverse=True)`.  No withdrawal of any kind. -/
def bf_rider (clist : List (ℚ × ℕ)) (ccount : ℕ) (bc : ℤ)
    (g : ℕ → Station) (d : RiderDraw) : ℕ → Station :=
  if d.r ≤ (clist.getD ccount (0, 0)).1 then
    let node := (clist.getD (randrange 0 ccount d.k) (0, 0)).2
    let res := check_station g node bc true true
    if res.1 then res.2 else (move_bikes res.2 clist bc true).2.2
  else
    let node := (clist.getD (randrange (ccount + 1) (clist.length - 1) d.k) (0, 0)).2
    let res := check_station g node bc true true
    if res.1 then res.2 else (move_bikes res.2 (sortedRev clist) bc true).2.2

/-- The rider loop of `bike_flow` (MIS40550); `bike_count` is fixed to 1
in the source. -/
def bike_flow (clist : List (ℚ × ℕ)) (ccount : ℕ) :
    (ℕ → Station) → List RiderDraw → (ℕ → Station)
  | g, [] => g
  | g, d :: ds => bike_flow clist ccount (bf_rider clist ccount 1 g d) ds

/-- Total free spaces over the station set. -/
def sumSpaces (g : ℕ → Station) (V : Finset ℕ) : ℤ := ∑ n ∈ V, (g n).spaces

/-- Total bikes present over the station set. -/
def sumBikes (g : ℕ → Station) (V : Finset ℕ) : ℤ :=
  ∑ n ∈ V, ((g n).total - (g n).spaces)

/-- The documented per-station bounds invariant. -/
def StInv (s : Station) : Prop := 0 ≤ s.spaces ∧ s.spaces ≤ s.total

/-- Bounds invariant over the whole store. -/
def GInv (g : ℕ → Station) : Prop := ∀ n, StInv (g n)

/-- Modelled from the spec: capacity `round(centrality * 10) * 10` as
the specification text states it (the code's `bikes_init` instead uses
`int(10*centrality)*10`, i.e. truncation); kept for comparison with the
source definition. -/
def total_of_cent_spec (c : ℚ) : ℤ := round (10 * c) * 10

theorem check_station_fail_eq (g : ℕ → Station) (node : ℕ) (change : ℤ)
    (add person : Bool) (h : (check_station g node change add person).1 = false) :
    (check_station g node change add person).2 = g := by
  unfold check_station at h ⊢
  cases add <;> simp only [Bool.false_eq_true, if_false, if_true] at h ⊢
  · by_cases hc : change ≤ (g node).total - (g node).spaces
    · simp [hc] at h
    · simp [hc]
  · by_cases hc : change ≤ (g node).spaces
    · simp [hc] at h
    · simp [hc]

/-- C1: for every station and requested amount `n ≥ 0`, add-mode
`check_station` succeeds and decrements `spaces` by exactly `n` when
`spaces ≥ n` (other stations untouched), else fails with no mutation;
remove-mode succeeds and increments `spaces` by `n` when
`total - spaces ≥ n`, else fails with no mutation; with `person=True`,
`full` is bumped exactly when a successful take leaves `spaces = 0` and
`empty` exactly when a successful release leaves zero bikes; the other
counter, and both counters with `person=False`, never change. -/
theorem check_station_contract (g : ℕ → Station) (node : ℕ) (n : ℤ) (person : Bool)
    (hn : 0 ≤ n) :
    ((n ≤ (g node).spaces →
        (check_station g node n true person).1 = true ∧
        ((check_station g node n true person).2 node).spaces = (g node).spaces - n ∧
        ((check_station g node n true person).2 node).total = (g node).total ∧
        ∀ m, m ≠ node → (check_station g node n true person).2 m = g m) ∧
     (¬ n ≤ (g node).spaces → check_station g node n true person = (false, g))) ∧
    ((n ≤ (g node).total - (g node).spaces →
        (check_station g node n false person).1 = true ∧
        ((check_station g node n false person).2 node).spaces = (g node).spaces + n ∧
        ((check_station g node n false person).2 node).total = (g node).total ∧
        ∀ m, m ≠ node → (check_station g node n false person).2 m = g m) ∧
     (¬ n ≤ (g node).total - (g node).spaces →
        check_station g node n false person = (false, g))) ∧
    (((check_station g node n true true).2 node).full =
        (g node).full +
          (if n ≤ (g node).spaces ∧ (g node).spaces - n = 0 then 1 else 0)) ∧
    (((check_station g node n false true).2 node).empty =
        (g node).empty +
          (if n ≤ (g node).total - (g node).spaces ∧
              (g node).total - ((g node).spaces + n) = 0 then 1 else 0)) ∧
    (((check_station g node n true person).2 node).empty = (g node).empty) ∧
    (((check_station g node n false person).2 node).full = (g node).full) ∧
    (((check_station g node n true false).2 node).full = (g node).full) ∧
    (((check_station g node n false false).2 node).empty = (g node).empty) := by
  unfold check_station
  by_cases h1 : n ≤ (g node).spaces <;>
    by_cases h2 : n ≤ (g node).total - (g node).spaces <;>
    cases person <;>
    simp only [h1, h2, if_true, if_false, Bool.false_eq_true, ite_true, ite_false,
      if_pos, Function.update_apply] <;>
    split_ifs <;>
    simp_all [Function.update_apply]

/-- C1 witness: the contract at a concrete station store. -/
theorem check_station_contract_witness :
    (0:ℤ) ≤ 1 ∧
    ((check_station (fun _ => ⟨10, 5, 0, 0⟩) 0 1 true true).2 0).spaces = 4 := by
  have h := check_station_contract (fun _ => ⟨10, 5, 0, 0⟩) 0 1 true (by norm_num)
  refine ⟨by norm_num, ?_⟩
  have h2 := (h.1.1 (by norm_num)).2.1
  simpa using h2

/-- C2: on a station with `spaces = 0`, a person's one-bike deposit
attempt fails and leaves `spaces` unchanged, but the code leaves
`full` unchanged as well — it does not count the failed add-attempt
(the counter is instead bumped by a successful take that fills the
station, contradicting the comments in the source that say `full`
tracks people who tried to add when there was no room). -/
theorem check_station_failed_add_not_counted :
    check_station (fun _ => ⟨10, 0, 0, 0⟩) 0 1 true true
        = (false, fun _ => ⟨10, 0, 0, 0⟩) ∧
    ((check_station (fun _ => ⟨10, 0, 0, 0⟩) 0 1 true true).2 0).full = 0 ∧
    ((check_station (fun _ => ⟨10, 0, 0, 0⟩) 0 1 true true).2 0).spaces = 0 := by
  refine ⟨?_, rfl, rfl⟩
  rfl

theorem bikes_init_not_mem (cent : ℕ → ℚ) (l : List ℕ) (g : ℕ → Station) (u : ℕ)
    (hu : u ∉ l) : bikes_init cent l g u = g u := by
  induction l generalizing g with
  | nil => rfl
  | cons v rest ih =>
    have hv : u ≠ v := fun h => hu (h ▸ List.mem_cons_self v rest)
    have hr : u ∉ rest := fun h => hu (List.mem_cons_of_mem v h)
    unfold bikes_init
    rw [ih _ hr, Function.update_noteq hv]

theorem bikes_init_mem (cent : ℕ → ℚ) (l : List ℕ) (g : ℕ → Station) (u : ℕ)
    (hu : u ∈ l) :
    bikes_init cent l g u =
      { total := pyInt (10 * cent u) * 10,
        spaces := (pyInt (10 * cent u) * 10) / 2, full := 0, empty := 0 } := by
  induction l generalizing g with
  | nil => cases hu
  | cons v rest ih =>
    by_cases hr : u ∈ rest
    · exact ih _ hr
    · have hv : u = v := by
        rcases List.mem_cons.mp hu with h | h
        · exact h
        · exact absurd h hr
      subst hv
      unfold bikes_init
      rw [bikes_init_not_mem cent rest _ u hr, Function.update_same]

/-- C6 counterexample: the claim says initialization sets
`total_capacity = round(centrality * 10) * 10`.  With centrality
`27/39` (in-degree 27 over 39 possible predecessors) the code's
`bikes_init` sets `total = int(10 * 27/39) * 10 = 60`, while the
claimed formula gives `round(270/39) * 10 = 70`. -/
theorem bikes_init_round_cex :
    ((bikes_init (fun _ => (27:ℚ)/39) [0] (fun _ => ⟨0, 0, 0, 0⟩)) 0).total = 60 ∧
    total_of_cent_spec ((27:ℚ)/39) = 70 := by
  constructor
  · have h := bikes_init_mem (fun _ => (27:ℚ)/39) [0] (fun _ => ⟨0, 0, 0, 0⟩) 0
      (List.mem_singleton.mpr rfl)
    rw [h]
    show pyInt (10 * ((27:ℚ)/39)) * 10 = 60
    unfold pyInt
    norm_num
  · unfold total_of_cent_spec
    norm_num [round_eq]

/-- C6 amended: for every station in the initialized node list,
`bikes_init` sets `total_capacity = int(centrality * 10) * 10`
(truncation, not rounding), sets `spaces_free` to exactly half of
`total_capacity`, and zeroes both counters. -/
theorem bikes_init_sets_fields (cent : ℕ → ℚ) (l : List ℕ) (g : ℕ → Station) (u : ℕ)
    (hu : u ∈ l) :
    ((bikes_init cent l g) u).total = pyInt (10 * cent u) * 10 ∧
    2 * ((bikes_init cent l g) u).spaces = ((bikes_init cent l g) u).total ∧
    ((bikes_init cent l g) u).full = 0 ∧ ((bikes_init cent l g) u).empty = 0 := by
  rw [bikes_init_mem cent l g u hu]
  refine ⟨rfl, ?_, rfl, rfl⟩
  have hdvd : (2:ℤ) ∣ pyInt (10 * cent u) * 10 := ⟨pyInt (10 * cent u) * 5, by ring⟩
  exact Int.mul_ediv_cancel' hdvd

/-- C6 amended witness: initialization at one station with centrality
`3/10` yields capacity 30, 15 free spaces, zero counters. -/
theorem bikes_init_sets_fields_witness :
    (0 ∈ [0] ∧
      ((bikes_init (fun _ => (3:ℚ)/10) [0] (fun _ => ⟨0, 0, 0, 0⟩)) 0).total =
        pyInt (10 * ((3:ℚ)/10)) * 10) ∧
    2 * ((bikes_init (fun _ => (3:ℚ)/10) [0] (fun _ => ⟨0, 0, 0, 0⟩)) 0).spaces =
      ((bikes_init (fun _ => (3:ℚ)/10) [0] (fun _ => ⟨0, 0, 0, 0⟩)) 0).total := by
  have h := bikes_init_sets_fields (fun _ => (3:ℚ)/10) [0] (fun _ => ⟨0, 0, 0, 0⟩) 0
    (List.mem_singleton.mpr rfl)
  exact ⟨⟨List.mem_singleton.mpr rfl, h.1⟩, h.2.1⟩

theorem check_station_total_eq (g : ℕ → Station) (node : ℕ) (c : ℤ)
    (add person : Bool) (m : ℕ) :
    ((check_station g node c add person).2 m).total = (g m).total := by
  simp only [check_station]
  by_cases hm : m = node <;> split_ifs <;> simp_all [Function.update_apply]

theorem check_station_truck_counters (g : ℕ → Station) (node : ℕ) (c : ℤ)
    (add : Bool) (m : ℕ) :
    ((check_station g node c add false).2 m).full = (g m).full ∧
    ((check_station g node c add false).2 m).empty = (g m).empty := by
  simp only [check_station]
  by_cases hm : m = node <;> split_ifs <;> simp_all [Function.update_apply]

theorem add_bikes_truck_counters (l : List (ℚ × ℕ)) :
    ∀ (g : ℕ → Station) (k : ℤ) (m : ℕ),
      ((add_bikes g l k false).2.2 m).full = (g m).full ∧
      ((add_bikes g l k false).2.2 m).empty = (g m).empty := by
  induction l with
  | nil => intro g k m; exact ⟨rfl, rfl⟩
  | cons p rest ih =>
    intro g k m
    simp only [add_bikes, Bool.false_eq_true, if_false]
    split_ifs with h1 h2 h3
    · exact ⟨rfl, rfl⟩
    · exact ih g k m
    · constructor
      · rw [(ih _ _ m).1]
        by_cases hm : m = p.2 <;> simp [Function.update_apply, hm]
      · rw [(ih _ _ m).2]
        by_cases hm : m = p.2 <;> simp [Function.update_apply, hm]
    · constructor
      · rw [(ih _ _ m).1]
        by_cases hm : m = p.2 <;> simp [Function.update_apply, hm]
      · rw [(ih _ _ m).2]
        by_cases hm : m = p.2 <;> simp [Function.update_apply, hm]

theorem add_bikes_q_truck_counters (l : List (ℤ × ℕ)) :
    ∀ (g : ℕ → Station) (k : ℤ) (m : ℕ),
      ((add_bikes_q g l k false).2.2 m).full = (g m).full ∧
      ((add_bikes_q g l k false).2.2 m).empty = (g m).empty := by
  induction l with
  | nil => intro g k m; exact ⟨rfl, rfl⟩
  | cons p rest ih =>
    intro g k m
    simp only [add_bikes_q, Bool.false_eq_true, if_false]
    split_ifs with h1 h2 h3
    · exact ⟨rfl, rfl⟩
    · exact ih g k m
    · constructor
      · rw [(ih _ _ m).1]
        by_cases hm : m = p.2 <;> simp [Function.update_apply, hm]
      · rw [(ih _ _ m).2]
        by_cases hm : m = p.2 <;> simp [Function.update_apply, hm]
    · constructor
      · rw [(ih _ _ m).1]
        by_cases hm : m = p.2 <;> simp [Function.update_apply, hm]
      · rw [(ih _ _ m).2]
        by_cases hm : m = p.2 <;> simp [Function.update_apply, hm]

theorem truck_runs_db_counters (central_list : List (ℚ × ℕ)) (num : ℤ) :
    ∀ (runs : ℕ) (q : List (ℚ × ℕ)) (g : ℕ → Station) (m : ℕ),
      ((truck_runs_db central_list num runs q g) m).full = (g m).full ∧
      ((truck_runs_db central_list num runs q g) m).empty = (g m).empty := by
  intro runs
  induction runs with
  | zero => intro q g m; exact ⟨rfl, rfl⟩
  | succ r ih =>
    intro q g m
    cases q with
    | nil => exact ih [] g m
    | cons station rest =>
      simp only [truck_runs_db]
      split_ifs with h
      · rw [(ih _ _ m).1, (ih _ _ m).2,
          (add_bikes_truck_counters _ _ _ m).1, (add_bikes_truck_counters _ _ _ m).2,
          (check_station_truck_counters _ _ _ _ m).1,
          (check_station_truck_counters _ _ _ _ m).2]
        exact ⟨rfl, rfl⟩
      · rw [(ih _ _ m).1, (ih _ _ m).2,
          (check_station_truck_counters _ _ _ _ m).1,
          (check_station_truck_counters _ _ _ _ m).2]
        exact ⟨rfl, rfl⟩

theorem truck_runs_mis_counters (num : ℤ) :
    ∀ (runs : ℕ) (q : List (ℚ × ℕ)) (fq : List (ℤ × ℕ)) (g : ℕ → Station) (m : ℕ),
      ((truck_runs_mis num runs q fq g) m).full = (g m).full ∧
      ((truck_runs_mis num runs q fq g) m).empty = (g m).empty := by
  intro runs
  induction runs with
  | zero => intro q fq g m; exact ⟨rfl, rfl⟩
  | succ r ih =>
    intro q fq g m
    cases q with
    | nil => exact ih [] fq g m
    | cons station rest =>
      simp only [truck_runs_mis]
      split_ifs with h
      · rw [(ih _ _ _ m).1, (ih _ _ _ m).2,
          (add_bikes_q_truck_counters _ _ _ m).1, (add_bikes_q_truck_counters _ _ _ m).2,
          (check_station_truck_counters _ _ _ _ m).1,
          (check_station_truck_counters _ _ _ _ m).2]
        exact ⟨rfl, rfl⟩
      · rw [(ih _ _ _ m).1, (ih _ _ _ m).2,
          (check_station_truck_counters _ _ _ _ m).1,
          (check_station_truck_counters _ _ _ _ m).2]
        exact ⟨rfl, rfl⟩

/-- C5: the rebalancing pass of either variant — the source release it
pops from the priority selection and every deposit made by its fallback
scan, all tagged `person=False` — leaves every station's `full` and
`empty` counters unchanged. -/
theorem bike_trucks_preserve_counters (cent : ℕ → ℚ) (g : ℕ → Station)
    (nodes : List ℕ) (runs : ℕ) (num : ℤ) (central_list : List (ℚ × ℕ)) (m : ℕ) :
    ((bike_trucks_db cent g nodes runs num central_list) m).full = (g m).full ∧
    ((bike_trucks_db cent g nodes runs num central_list) m).empty = (g m).empty ∧
    ((bike_trucks_mis cent g nodes runs num) m).full = (g m).full ∧
    ((bike_trucks_mis cent g nodes runs num) m).empty = (g m).empty := by
  refine ⟨(truck_runs_db_counters _ _ _ _ _ m).1, (truck_runs_db_counters _ _ _ _ _ m).2,
    (truck_runs_mis_counters _ _ _ _ _ m).1, (truck_runs_mis_counters _ _ _ _ _ m).2⟩

theorem check_station_add_pos (g : ℕ → Station) (node : ℕ) (c : ℤ) (person : Bool)
    (h : c ≤ (g node).spaces) :
    check_station g node c true person =
      (true, Function.update g node
        (if person then
          (if (g node).spaces - c = 0 then
            { g node with spaces := (g node).spaces - c, full := (g node).full + 1 }
           else { g node with spaces := (g node).spaces - c })
         else { g node with spaces := (g node).spaces - c })) := by
  simp [check_station, h]

theorem check_station_add_neg (g : ℕ → Station) (node : ℕ) (c : ℤ) (person : Bool)
    (h : ¬ c ≤ (g node).spaces) :
    check_station g node c true person = (false, g) := by
  simp [check_station, h]

theorem check_station_rem_pos (g : ℕ → Station) (node : ℕ) (c : ℤ) (person : Bool)
    (h : c ≤ (g node).total - (g node).spaces) :
    check_station g node c false person =
      (true, Function.update g node
        (if person then
          (if (g node).total - ((g node).spaces + c) = 0 then
            { g node with spaces := (g node).spaces + c, empty := (g node).empty + 1 }
           else { g node with spaces := (g node).spaces + c })
         else { g node with spaces := (g node).spaces + c })) := by
  simp [check_station, h]

theorem check_station_rem_neg (g : ℕ → Station) (node : ℕ) (c : ℤ) (person : Bool)
    (h : ¬ c ≤ (g node).total - (g node).spaces) :
    check_station g node c false person = (false, g) := by
  simp [check_station, h]

theorem move_bikes_nil (g : ℕ → Station) (k : ℤ) (person : Bool) :
    move_bikes g [] k person = (false, k, g) := rfl

theorem move_bikes_cons_done (g : ℕ → Station) (p : ℚ × ℕ) (rest : List (ℚ × ℕ))
    (k : ℤ) (person : Bool) (h1 : k ≤ 0) :
    move_bikes g (p :: rest) k person = (true, k, g) := by
  simp [move_bikes, h1]

theorem move_bikes_cons_zero (g : ℕ → Station) (p : ℚ × ℕ) (rest : List (ℚ × ℕ))
    (k : ℤ) (person : Bool) (h1 : ¬ k ≤ 0) (h2 : (g p.2).spaces = 0) :
    move_bikes g (p :: rest) k person = move_bikes g rest k person := by
  simp [move_bikes, h1, h2]

theorem move_bikes_cons_fill (g : ℕ → Station) (p : ℚ × ℕ) (rest : List (ℚ × ℕ))
    (k : ℤ) (person : Bool) (h1 : ¬ k ≤ 0) (h2 : (g p.2).spaces ≠ 0)
    (h3 : (g p.2).spaces ≤ k) :
    move_bikes g (p :: rest) k person =
      move_bikes (Function.update g p.2
        (if person then
          { g p.2 with spaces := 0, empty := (g p.2).empty + 1, full := (g p.2).full + 1 }
         else { g p.2 with spaces := 0, empty := (g p.2).empty + 1 }))
        rest (k - (g p.2).spaces) person := by
  simp [move_bikes, h1, h2, h3]

theorem move_bikes_cons_part (g : ℕ → Station) (p : ℚ × ℕ) (rest : List (ℚ × ℕ))
    (k : ℤ) (person : Bool) (h1 : ¬ k ≤ 0) (h3 : ¬ (g p.2).spaces ≤ k) :
    move_bikes g (p :: rest) k person =
      move_bikes (Function.update g p.2 { g p.2 with spaces := (g p.2).spaces - k })
        rest 0 person := by
  have h2 : (g p.2).spaces ≠ 0 := by intro h; exact h3 (by omega)
  simp [move_bikes, h1, h2, h3]

theorem add_bikes_nil (g : ℕ → Station) (k : ℤ) (person : Bool) :
    add_bikes g [] k person = (false, k, g) := rfl

theorem add_bikes_cons_done (g : ℕ → Station) (p : ℚ × ℕ) (rest : List (ℚ × ℕ))
    (k : ℤ) (person : Bool) (h1 : k ≤ 0) :
    add_bikes g (p :: rest) k person = (true, k, g) := by
  simp [add_bikes, h1]

theorem add_bikes_cons_zero (g : ℕ → Station) (p : ℚ × ℕ) (rest : List (ℚ × ℕ))
    (k : ℤ) (person : Bool) (h1 : ¬ k ≤ 0) (h2 : (g p.2).spaces = 0) :
    add_bikes g (p :: rest) k person = add_bikes g rest k person := by
  simp [add_bikes, h1, h2]

theorem add_bikes_cons_fill (g : ℕ → Station) (p : ℚ × ℕ) (rest : List (ℚ × ℕ))
    (k : ℤ) (person : Bool) (h1 : ¬ k ≤ 0) (h2 : (g p.2).spaces ≠ 0)
    (h3 : (g p.2).spaces ≤ k) :
    add_bikes g (p :: rest) k person =
      add_bikes (Function.update g p.2
        (if person then { g p.2 with spaces := 0, full := (g p.2).full + 1 }
         else { g p.2 with spaces := 0 }))
        rest (k - (g p.2).spaces) person := by
  simp [add_bikes, h1, h2, h3]

theorem add_bikes_cons_part (g : ℕ → Station) (p : ℚ × ℕ) (rest : List (ℚ × ℕ))
    (k : ℤ) (person : Bool) (h1 : ¬ k ≤ 0) (h3 : ¬ (g p.2).spaces ≤ k) :
    add_bikes g (p :: rest) k person =
      add_bikes (Function.update g p.2 { g p.2 with spaces := (g p.2).spaces - k })
        rest 0 person := by
  have h2 : (g p.2).spaces ≠ 0 := by intro h; exact h3 (by omega)
  simp [add_bikes, h1, h2, h3]

theorem add_bikes_q_nil (g : ℕ → Station) (k : ℤ) (person : Bool) :
    add_bikes_q g [] k person = (false, [], g) := rfl

theorem add_bikes_q_cons_done (g : ℕ → Station) (p : ℤ × ℕ) (rest : List (ℤ × ℕ))
    (k : ℤ) (person : Bool) (h1 : k ≤ 0) :
    add_bikes_q g (p :: rest) k person = (true, rest, g) := by
  simp [add_bikes_q, h1]

theorem add_bikes_q_cons_zero (g : ℕ → Station) (p : ℤ × ℕ) (rest : List (ℤ × ℕ))
    (k : ℤ) (person : Bool) (h1 : ¬ k ≤ 0) (h2 : (g p.2).spaces = 0) :
    add_bikes_q g (p :: rest) k person = add_bikes_q g rest k person := by
  simp [add_bikes_q, h1, h2]

theorem add_bikes_q_cons_fill (g : ℕ → Station) (p : ℤ × ℕ) (rest : List (ℤ × ℕ))
    (k : ℤ) (person : Bool) (h1 : ¬ k ≤ 0) (h2 : (g p.2).spaces ≠ 0)
    (h3 : (g p.2).spaces ≤ k) :
    add_bikes_q g (p :: rest) k person =
      add_bikes_q (Function.update g p.2
        (if person then { g p.2 with spaces := 0, full := (g p.2).full + 1 }
         else { g p.2 with spaces := 0 }))
        rest (k - (g p.2).spaces) person := by
  simp [add_bikes_q, h1, h2, h3]

theorem add_bikes_q_cons_part (g : ℕ → Station) (p : ℤ × ℕ) (rest : List (ℤ × ℕ))
    (k : ℤ) (person : Bool) (h1 : ¬ k ≤ 0) (h3 : ¬ (g p.2).spaces ≤ k) :
    add_bikes_q g (p :: rest) k person =
      add_bikes_q (Function.update g p.2 { g p.2 with spaces := (g p.2).spaces - k })
        rest 0 person := by
  have h2 : (g p.2).spaces ≠ 0 := by intro h; exact h3 (by omega)
  simp [add_bikes_q, h1, h2, h3]

theorem move_bikes_not_mem (l : List (ℚ × ℕ)) :
    ∀ (g : ℕ → Station) (k : ℤ) (person : Bool) (m : ℕ),
      m ∉ l.map Prod.snd → (move_bikes g l k person).2.2 m = g m := by
  induction l with
  | nil => intro g k person m _; rfl
  | cons p rest ih =>
    intro g k person m hm
    simp only [List.map_cons, List.mem_cons] at hm
    push_neg at hm
    obtain ⟨hmp, hmr⟩ := hm
    by_cases h1 : k ≤ 0
    · rw [move_bikes_cons_done g p rest k person h1]
    · by_cases h2 : (g p.2).spaces = 0
      · rw [move_bikes_cons_zero g p rest k person h1 h2]; exact ih g k person m hmr
      · by_cases h3 : (g p.2).spaces ≤ k
        · rw [move_bikes_cons_fill g p rest k person h1 h2 h3, ih _ _ _ m hmr,
            Function.update_noteq hmp]
        · rw [move_bikes_cons_part g p rest k person h1 h3, ih _ _ _ m hmr,
            Function.update_noteq hmp]

theorem move_bikes_person_indep (l : List (ℚ × ℕ)) :
    ∀ (g1 g2 : ℕ → Station) (k : ℤ),
      (∀ m, (g1 m).spaces = (g2 m).spaces ∧ (g1 m).empty = (g2 m).empty) →
      (move_bikes g1 l k true).1 = (move_bikes g2 l k false).1 ∧
      (move_bikes g1 l k true).2.1 = (move_bikes g2 l k false).2.1 ∧
      ∀ m, ((move_bikes g1 l k true).2.2 m).spaces = ((move_bikes g2 l k false).2.2 m).spaces ∧
           ((move_bikes g1 l k true).2.2 m).empty = ((move_bikes g2 l k false).2.2 m).empty := by
  induction l with
  | nil => intro g1 g2 k h; exact ⟨rfl, rfl, h⟩
  | cons p rest ih =>
    intro g1 g2 k h
    have hs := (h p.2).1
    by_cases h1 : k ≤ 0
    · rw [move_bikes_cons_done g1 p rest k true h1, move_bikes_cons_done g2 p rest k false h1]
      exact ⟨rfl, rfl, h⟩
    · by_cases h2 : (g2 p.2).spaces = 0
      · rw [move_bikes_cons_zero g1 p rest k true h1 (hs.trans h2),
          move_bikes_cons_zero g2 p rest k false h1 h2]
        exact ih g1 g2 k h
      · by_cases h3 : (g2 p.2).spaces ≤ k
        · rw [move_bikes_cons_fill g1 p rest k true h1 (hs ▸ h2) (hs ▸ h3),
            move_bikes_cons_fill g2 p rest k false h1 h2 h3, hs]
          apply ih
          intro m
          by_cases hm : m = p.2
          · subst hm
            simp [Function.update_same, (h p.2).2]
          · simp [Function.update_noteq hm, h m]
        · rw [move_bikes_cons_part g1 p rest k true h1 (fun hc => h3 (hs ▸ hc)),
            move_bikes_cons_part g2 p rest k false h1 h3]
          apply ih
          intro m
          by_cases hm : m = p.2
          · subst hm
            simp [Function.update_same, hs, (h p.2).2]
          · simp [Function.update_noteq hm, h m]

/-- C10: in the MIS40550 variant, the fallback deposit scan
`move_bikes` bumps a station's `empty` counter by 1 whenever it fills
that station to zero free spaces during the scan, and this happens
regardless of the `person` flag: the resulting `empty` counters of a
`person=True` run and a `person=False` run coincide, a filled head
station's `empty` grows by exactly 1, and a station the scan merely
tops up (more spaces than bikes) keeps its `empty` count. -/
theorem move_bikes_fills_bump_empty (g : ℕ → Station) (l : List (ℚ × ℕ))
    (p : ℚ × ℕ) (rest : List (ℚ × ℕ)) (k : ℤ) (person : Bool) (m : ℕ)
    (h1 : ¬ k ≤ 0) (hdup : p.2 ∉ rest.map Prod.snd) :
    (((move_bikes g l k true).2.2 m).empty = ((move_bikes g l k false).2.2 m).empty) ∧
    (0 < (g p.2).spaces → (g p.2).spaces ≤ k →
      ((move_bikes g (p :: rest) k person).2.2 p.2).empty = (g p.2).empty + 1) ∧
    (k < (g p.2).spaces →
      ((move_bikes g (p :: rest) k person).2.2 p.2).empty = (g p.2).empty) := by
  refine ⟨(move_bikes_person_indep l g g k (fun m => ⟨rfl, rfl⟩)).2.2 m |>.2, ?_, ?_⟩
  · intro hpos hle
    rw [move_bikes_cons_fill g p rest k person h1 (by omega) hle,
      move_bikes_not_mem rest _ _ _ _ hdup]
    cases person <;> simp [Function.update_same]
  · intro hgt
    rw [move_bikes_cons_part g p rest k person h1 (by omega),
      move_bikes_not_mem rest _ _ _ _ hdup]
    simp [Function.update_same]

/-- C10 witness: a scan with one bike over a station with one space
fills it and bumps `empty` from 0 to 1, with `person=False`. -/
theorem move_bikes_fills_bump_empty_witness :
    ¬ (1:ℤ) ≤ 0 ∧ (0:ℕ) ∉ ([] : List (ℚ × ℕ)).map Prod.snd ∧
    (0:ℤ) < 1 ∧ (1:ℤ) ≤ 1 ∧
    ((move_bikes (fun _ => ⟨10, 1, 0, 0⟩) [((5:ℚ), 0)] 1 false).2.2 0).empty = 0 + 1 := by
  have h := move_bikes_fills_bump_empty (fun _ => ⟨10, 1, 0, 0⟩) [((5:ℚ), 0)]
    ((5:ℚ), 0) [] 1 false 0 (by norm_num) (by simp)
  exact ⟨by norm_num, by simp, by norm_num, by norm_num, h.2.1 (by norm_num) (by norm_num)⟩

theorem check_station_inv (g : ℕ → Station) (node : ℕ) (c : ℤ) (add person : Bool)
    (hc : 0 ≤ c) (hg : GInv g) : GInv (check_station g node c add person).2 := by
  intro m
  have hn := hg node
  have hm' := hg m
  unfold StInv at *
  cases add
  · by_cases h : c ≤ (g node).total - (g node).spaces
    · rw [check_station_rem_pos g node c person h]
      dsimp only
      by_cases hm : m = node
      · subst hm
        rw [Function.update_same]
        split_ifs <;> dsimp <;> omega
      · rw [Function.update_noteq hm]; exact hm'
    · rw [check_station_rem_neg g node c person h]; exact hm'
  · by_cases h : c ≤ (g node).spaces
    · rw [check_station_add_pos g node c person h]
      dsimp only
      by_cases hm : m = node
      · subst hm
        rw [Function.update_same]
        split_ifs <;> dsimp <;> omega
      · rw [Function.update_noteq hm]; exact hm'
    · rw [check_station_add_neg g node c person h]; exact hm'

theorem add_bikes_inv (l : List (ℚ × ℕ)) :
    ∀ (g : ℕ → Station) (k : ℤ) (person : Bool),
      GInv g → GInv (add_bikes g l k person).2.2 := by
  induction l with
  | nil => intro g k person hg; exact hg
  | cons p rest ih =>
    intro g k person hg
    by_cases h1 : k ≤ 0
    · rw [add_bikes_cons_done g p rest k person h1]; exact hg
    · by_cases h2 : (g p.2).spaces = 0
      · rw [add_bikes_cons_zero g p rest k person h1 h2]; exact ih g k person hg
      · by_cases h3 : (g p.2).spaces ≤ k
        · rw [add_bikes_cons_fill g p rest k person h1 h2 h3]
          apply ih
          intro m
          by_cases hm : m = p.2
          · subst hm
            rw [Function.update_same]
            have hp := hg p.2
            unfold StInv at *
            cases person <;> simp <;> omega
          · rw [Function.update_noteq hm]; exact hg m
        · rw [add_bikes_cons_part g p rest k person h1 h3]
          apply ih
          intro m
          by_cases hm : m = p.2
          · subst hm
            rw [Function.update_same]
            have hp := hg p.2
            unfold StInv at *
            dsimp
            omega
          · rw [Function.update_noteq hm]; exact hg m

theorem move_bikes_inv (l : List (ℚ × ℕ)) :
    ∀ (g : ℕ → Station) (k : ℤ) (person : Bool),
      GInv g → GInv (move_bikes g l k person).2.2 := by
  induction l with
  | nil => intro g k person hg; exact hg
  | cons p rest ih =>
    intro g k person hg
    by_cases h1 : k ≤ 0
    · rw [move_bikes_cons_done g p rest k person h1]; exact hg
    · by_cases h2 : (g p.2).spaces = 0
      · rw [move_bikes_cons_zero g p rest k person h1 h2]; exact ih g k person hg
      · by_cases h3 : (g p.2).spaces ≤ k
        · rw [move_bikes_cons_fill g p rest k person h1 h2 h3]
          apply ih
          intro m
          by_cases hm : m = p.2
          · subst hm
            rw [Function.update_same]
            have hp := hg p.2
            unfold StInv at *
            cases person <;> simp <;> omega
          · rw [Function.update_noteq hm]; exact hg m
        · rw [move_bikes_cons_part g p rest k person h1 h3]
          apply ih
          intro m
          by_cases hm : m = p.2
          · subst hm
            rw [Function.update_same]
            have hp := hg p.2
            unfold StInv at *
            dsimp
            omega
          · rw [Function.update_noteq hm]; exact hg m

theorem add_bikes_q_inv (l : List (ℤ × ℕ)) :
    ∀ (g : ℕ → Station) (k : ℤ) (person : Bool),
      GInv g → GInv (add_bikes_q g l k person).2.2 := by
  induction l with
  | nil => intro g k person hg; exact hg
  | cons p rest ih =>
    intro g k person hg
    by_cases h1 : k ≤ 0
    · rw [add_bikes_q_cons_done g p rest k person h1]; exact hg
    · by_cases h2 : (g p.2).spaces = 0
      · rw [add_bikes_q_cons_zero g p rest k person h1 h2]; exact ih g k person hg
      · by_cases h3 : (g p.2).spaces ≤ k
        · rw [add_bikes_q_cons_fill g p rest k person h1 h2 h3]
          apply ih
          intro m
          by_cases hm : m = p.2
          · subst hm
            rw [Function.update_same]
            have hp := hg p.2
            unfold StInv at *
            cases person <;> simp <;> omega
          · rw [Function.update_noteq hm]; exact hg m
        · rw [add_bikes_q_cons_part g p rest k person h1 h3]
          apply ih
          intro m
          by_cases hm : m = p.2
          · subst hm
            rw [Function.update_same]
            have hp := hg p.2
            unfold StInv at *
            dsimp
            omega
          · rw [Function.update_noteq hm]; exact hg m

theorem bikes_init_inv (cent : ℕ → ℚ) (l : List ℕ) (g : ℕ → Station)
    (hc : ∀ u, 0 ≤ cent u) (hg : GInv g) : GInv (bikes_init cent l g) := by
  intro m
  by_cases hm : m ∈ l
  · rw [bikes_init_mem cent l g m hm]
    have hq : (0:ℚ) ≤ 10 * cent m := mul_nonneg (by norm_num) (hc m)
    have ht : 0 ≤ pyInt (10 * cent m) * 10 := by
      unfold pyInt
      rw [if_neg (not_lt.mpr hq)]
      have : (0:ℤ) ≤ ⌊(10:ℚ) * cent m⌋ := Int.floor_nonneg.mpr hq
      omega
    exact ⟨Int.ediv_nonneg ht (by norm_num), Int.ediv_le_self _ ht⟩
  · rw [bikes_init_not_mem cent l g m hm]; exact hg m

theorem truck_runs_db_inv (central_list : List (ℚ × ℕ)) (num : ℤ) (hnum : 0 ≤ num) :
    ∀ (runs : ℕ) (q : List (ℚ × ℕ)) (g : ℕ → Station),
      GInv g → GInv (truck_runs_db central_list num runs q g) := by
  intro runs
  induction runs with
  | zero => intro q g hg; exact hg
  | succ r ih =>
    intro q g hg
    cases q with
    | nil => exact ih [] g hg
    | cons station rest =>
      have ht : (0:ℤ) ≤ (g station.2).total :=
        le_trans (hg station.2).1 (hg station.2).2
      have hb : (0:ℤ) ≤ (g station.2).total * num / 100 :=
        Int.ediv_nonneg (mul_nonneg ht hnum) (by norm_num)
      simp only [truck_runs_db]
      split_ifs with h
      · exact ih _ _ (add_bikes_inv _ _ _ _ (check_station_inv _ _ _ _ _ hb hg))
      · exact ih _ _ (check_station_inv _ _ _ _ _ hb hg)

theorem truck_runs_mis_inv (num : ℤ) (hnum : 0 ≤ num) :
    ∀ (runs : ℕ) (q : List (ℚ × ℕ)) (fq : List (ℤ × ℕ)) (g : ℕ → Station),
      GInv g → GInv (truck_runs_mis num runs q fq g) := by
  intro runs
  induction runs with
  | zero => intro q fq g hg; exact hg
  | succ r ih =>
    intro q fq g hg
    cases q with
    | nil => exact ih [] fq g hg
    | cons station rest =>
      have ht : (0:ℤ) ≤ (g station.2).total :=
        le_trans (hg station.2).1 (hg station.2).2
      have hb : (0:ℤ) ≤ (g station.2).total * num / 100 :=
        Int.ediv_nonneg (mul_nonneg ht hnum) (by norm_num)
      simp only [truck_runs_mis]
      split_ifs with h
      · exact ih _ _ _ (add_bikes_q_inv _ _ _ _ (check_station_inv _ _ _ _ _ hb hg))
      · exact ih _ _ _ (check_station_inv _ _ _ _ _ hb hg)

theorem neigh_remove_inv (nl : List ℕ) :
    ∀ (g : ℕ → Station) (bc : ℤ), 0 ≤ bc → GInv g → GInv (neigh_remove bc g nl).2 := by
  induction nl with
  | nil => intro g bc _ hg; exact hg
  | cons n rest ih =>
    intro g bc hbc hg
    simp only [neigh_remove]
    split_ifs with h
    · exact check_station_inv _ _ _ _ _ hbc hg
    · exact ih _ bc hbc (check_station_inv _ _ _ _ _ hbc hg)

theorem am_rider_inv (clist : List (ℚ × ℕ)) (ccount : ℕ) (bc : ℤ) (neigh : ℕ → List ℕ)
    (g : ℕ → Station) (d : RiderDraw) (hbc : 0 ≤ bc) (hg : GInv g) :
    GInv (am_rider clist ccount bc neigh g d).2.2 := by
  simp only [am_rider]
  split_ifs with h h2 <;>
    refine neigh_remove_inv _ _ _ hbc ?_
  · exact check_station_inv _ _ _ _ _ hbc hg
  · exact add_bikes_inv _ _ _ _ (check_station_inv _ _ _ _ _ hbc hg)
  · exact check_station_inv _ _ _ _ _ hbc hg
  · exact check_station_inv _ _ _ _ _ hbc hg

theorem am_cycle_run_inv (clist : List (ℚ × ℕ)) (ccount : ℕ) (bc : ℤ)
    (neigh : ℕ → List ℕ) (ds : List RiderDraw) :
    ∀ (g : ℕ → Station), 0 ≤ bc → GInv g →
      GInv (am_cycle_run clist ccount bc neigh g ds).2 := by
  induction ds with
  | nil => intro g _ hg; exact hg
  | cons d rest ih =>
    intro g hbc hg
    exact ih _ hbc (am_rider_inv clist ccount bc neigh g d hbc hg)

theorem bf_rider_inv (clist : List (ℚ × ℕ)) (ccount : ℕ) (bc : ℤ)
    (g : ℕ → Station) (d : RiderDraw) (hbc : 0 ≤ bc) (hg : GInv g) :
    GInv (bf_rider clist ccount bc g d) := by
  simp only [bf_rider]
  split_ifs with h h2 h3
  · exact check_station_inv _ _ _ _ _ hbc hg
  · exact move_bikes_inv _ _ _ _ (check_station_inv _ _ _ _ _ hbc hg)
  · exact check_station_inv _ _ _ _ _ hbc hg
  · exact move_bikes_inv _ _ _ _ (check_station_inv _ _ _ _ _ hbc hg)

theorem bike_flow_inv (clist : List (ℚ × ℕ)) (ccount : ℕ) (ds : List RiderDraw) :
    ∀ (g : ℕ → Station), GInv g → GInv (bike_flow clist ccount g ds) := by
  induction ds with
  | nil => intro g hg; exact hg
  | cons d rest ih =>
    intro g hg
    exact ih _ (bf_rider_inv clist ccount 1 g d (by norm_num) hg)

/-- C4: every operation of the simulation preserves the bounds
invariant `0 ≤ spaces_free ≤ total_capacity` at every station: the
capacity primitive (for nonnegative amounts), the three fallback scans
(for any amount), the truck passes of both variants (for nonnegative
transfer percentages), the full demand-flow steps of both variants, and
initialization establishes it (for nonnegative centralities). -/
theorem simulation_preserves_bounds :
    (∀ (g : ℕ → Station) (node : ℕ) (c : ℤ) (add person : Bool),
      0 ≤ c → GInv g → GInv (check_station g node c add person).2) ∧
    (∀ (g : ℕ → Station) (l : List (ℚ × ℕ)) (k : ℤ) (person : Bool),
      GInv g → GInv (add_bikes g l k person).2.2) ∧
    (∀ (g : ℕ → Station) (l : List (ℚ × ℕ)) (k : ℤ) (person : Bool),
      GInv g → GInv (move_bikes g l k person).2.2) ∧
    (∀ (g : ℕ → Station) (l : List (ℤ × ℕ)) (k : ℤ) (person : Bool),
      GInv g → GInv (add_bikes_q g l k person).2.2) ∧
    (∀ (cent : ℕ → ℚ) (l : List ℕ) (g : ℕ → Station),
      (∀ u, 0 ≤ cent u) → GInv g → GInv (bikes_init cent l g)) ∧
    (∀ (cent : ℕ → ℚ) (g : ℕ → Station) (nodes : List ℕ) (runs : ℕ) (num : ℤ)
        (central_list : List (ℚ × ℕ)), 0 ≤ num → GInv g →
      GInv (bike_trucks_db cent g nodes runs num central_list)) ∧
    (∀ (cent : ℕ → ℚ) (g : ℕ → Station) (nodes : List ℕ) (runs : ℕ) (num : ℤ),
      0 ≤ num → GInv g → GInv (bike_trucks_mis cent g nodes runs num)) ∧
    (∀ (clist : List (ℚ × ℕ)) (ccount : ℕ) (bc : ℤ) (neigh : ℕ → List ℕ)
        (g : ℕ → Station) (ds : List RiderDraw), 0 ≤ bc → GInv g →
      GInv (am_cycle_run clist ccount bc neigh g ds).2) ∧
    (∀ (clist : List (ℚ × ℕ)) (ccount : ℕ) (g : ℕ → Station) (ds : List RiderDraw),
      GInv g → GInv (bike_flow clist ccount g ds)) := by
  refine ⟨fun g node c add person hc hg => check_station_inv g node c add person hc hg,
    fun g l k person hg => add_bikes_inv l g k person hg,
    fun g l k person hg => move_bikes_inv l g k person hg,
    fun g l k person hg => add_bikes_q_inv l g k person hg,
    fun cent l g hc hg => bikes_init_inv cent l g hc hg,
    fun cent g nodes runs num central_list hnum hg =>
      truck_runs_db_inv central_list num hnum runs _ g hg,
    fun cent g nodes runs num hnum hg =>
      truck_runs_mis_inv num hnum runs _ _ g hg,
    fun clist ccount bc neigh g ds hbc hg =>
      am_cycle_run_inv clist ccount bc neigh ds g hbc hg,
    fun clist ccount g ds hg => bike_flow_inv clist ccount ds g hg⟩

/-- C4 witness: the invariant holds at a constant store and is kept by
a concrete capacity call. -/
theorem simulation_preserves_bounds_witness :
    (0:ℤ) ≤ 2 ∧ GInv (fun _ => ⟨10, 5, 0, 0⟩) ∧
    GInv (check_station (fun _ => ⟨10, 5, 0, 0⟩) 3 2 true true).2 := by
  have hg : GInv (fun _ => ⟨10, 5, 0, 0⟩) := fun n => ⟨by norm_num, by norm_num⟩
  exact ⟨by norm_num, hg,
    simulation_preserves_bounds.1 (fun _ => ⟨10, 5, 0, 0⟩) 3 2 true true (by norm_num) hg⟩

theorem add_bikes_total_eq (l : List (ℚ × ℕ)) :
    ∀ (g : ℕ → Station) (k : ℤ) (person : Bool) (m : ℕ),
      ((add_bikes g l k person).2.2 m).total = (g m).total := by
  induction l with
  | nil => intro g k person m; rfl
  | cons p rest ih =>
    intro g k person m
    by_cases h1 : k ≤ 0
    · rw [add_bikes_cons_done g p rest k person h1]
    · by_cases h2 : (g p.2).spaces = 0
      · rw [add_bikes_cons_zero g p rest k person h1 h2]; exact ih g k person m
      · by_cases h3 : (g p.2).spaces ≤ k
        · rw [add_bikes_cons_fill g p rest k person h1 h2 h3, ih _ _ _ m]
          by_cases hm : m = p.2
          · subst hm; rw [Function.update_same]; cases person <;> rfl
          · rw [Function.update_noteq hm]
        · rw [add_bikes_cons_part g p rest k person h1 h3, ih _ _ _ m]
          by_cases hm : m = p.2
          · subst hm; rw [Function.update_same]
          · rw [Function.update_noteq hm]

theorem neigh_remove_total_eq (nl : List ℕ) :
    ∀ (g : ℕ → Station) (bc : ℤ) (m : ℕ),
      ((neigh_remove bc g nl).2 m).total = (g m).total := by
  induction nl with
  | nil => intro g bc m; rfl
  | cons n rest ih =>
    intro g bc m
    simp only [neigh_remove]
    split_ifs with h
    · exact check_station_total_eq g n bc false true m
    · rw [ih _ bc m, check_station_total_eq g n bc false true m]

theorem am_rider_total_eq (clist : List (ℚ × ℕ)) (ccount : ℕ) (bc : ℤ)
    (neigh : ℕ → List ℕ) (g : ℕ → Station) (d : RiderDraw) (m : ℕ) :
    ((am_rider clist ccount bc neigh g d).2.2 m).total = (g m).total := by
  simp only [am_rider]
  split_ifs with h h2 <;>
    rw [neigh_remove_total_eq] <;>
    first
      | exact check_station_total_eq _ _ _ _ _ m
      | rw [add_bikes_total_eq, check_station_total_eq]

theorem am_cycle_run_total_eq (clist : List (ℚ × ℕ)) (ccount : ℕ) (bc : ℤ)
    (neigh : ℕ → List ℕ) (ds : List RiderDraw) :
    ∀ (g : ℕ → Station) (m : ℕ),
      ((am_cycle_run clist ccount bc neigh g ds).2 m).total = (g m).total := by
  induction ds with
  | nil => intro g m; rfl
  | cons d rest ih =>
    intro g m
    rw [show (am_cycle_run clist ccount bc neigh g (d :: rest)).2 =
        (am_cycle_run clist ccount bc neigh (am_rider clist ccount bc neigh g d).2.2 rest).2
      from rfl]
    rw [ih _ m, am_rider_total_eq]

theorem sumSpaces_update (g : ℕ → Station) (V : Finset ℕ) (n : ℕ) (s : Station)
    (hn : n ∈ V) :
    sumSpaces (Function.update g n s) V = sumSpaces g V + s.spaces - (g n).spaces := by
  unfold sumSpaces
  have hcong : ∀ m ∈ V, (Function.update g n s m).spaces
      = Function.update (fun x => (g x).spaces) n s.spaces m := by
    intro m _
    by_cases hm : m = n
    · subst hm; rw [Function.update_same, Function.update_same]
    · rw [Function.update_noteq hm, Function.update_noteq hm]
  rw [Finset.sum_congr rfl hcong, Finset.sum_update_of_mem hn,
    Finset.sum_eq_sum_diff_singleton_add hn (fun m => (g m).spaces)]
  ring

theorem check_station_sum_add (g : ℕ → Station) (node : ℕ) (c : ℤ) (person : Bool)
    (V : Finset ℕ) (hn : node ∈ V)
    (h : (check_station g node c true person).1 = true) :
    sumSpaces (check_station g node c true person).2 V = sumSpaces g V - c := by
  by_cases hc : c ≤ (g node).spaces
  · rw [check_station_add_pos g node c person hc]
    dsimp only
    rw [sumSpaces_update _ _ _ _ hn]
    split_ifs <;> dsimp <;> ring
  · rw [check_station_add_neg g node c person hc] at h
    exact absurd h (by simp)

theorem check_station_sum_rem (g : ℕ → Station) (node : ℕ) (c : ℤ) (person : Bool)
    (V : Finset ℕ) (hn : node ∈ V)
    (h : (check_station g node c false person).1 = true) :
    sumSpaces (check_station g node c false person).2 V = sumSpaces g V + c := by
  by_cases hc : c ≤ (g node).total - (g node).spaces
  · rw [check_station_rem_pos g node c person hc]
    dsimp only
    rw [sumSpaces_update _ _ _ _ hn]
    split_ifs <;> dsimp <;> ring
  · rw [check_station_rem_neg g node c person hc] at h
    exact absurd h (by simp)

theorem add_bikes_sum (l : List (ℚ × ℕ)) :
    ∀ (g : ℕ → Station) (k : ℤ) (person : Bool) (V : Finset ℕ),
      (∀ q ∈ l, q.2 ∈ V) →
      sumSpaces (add_bikes g l k person).2.2 V =
        sumSpaces g V - (k - (add_bikes g l k person).2.1) := by
  induction l with
  | nil => intro g k person V _; rw [add_bikes_nil]; ring_nf
  | cons p rest ih =>
    intro g k person V hV
    have hp : p.2 ∈ V := hV p (List.mem_cons_self p rest)
    have hrest : ∀ q ∈ rest, q.2 ∈ V := fun q hq => hV q (List.mem_cons_of_mem p hq)
    by_cases h1 : k ≤ 0
    · rw [add_bikes_cons_done g p rest k person h1]; ring_nf
    · by_cases h2 : (g p.2).spaces = 0
      · rw [add_bikes_cons_zero g p rest k person h1 h2]; exact ih g k person V hrest
      · by_cases h3 : (g p.2).spaces ≤ k
        · rw [add_bikes_cons_fill g p rest k person h1 h2 h3]
          rw [ih _ _ _ V hrest, sumSpaces_update _ _ _ _ hp]
          cases person <;> dsimp <;> ring
        · rw [add_bikes_cons_part g p rest k person h1 h3]
          rw [ih _ _ _ V hrest, sumSpaces_update _ _ _ _ hp]
          dsimp
          ring

theorem neigh_remove_fail_eq (nl : List ℕ) :
    ∀ (g : ℕ → Station) (bc : ℤ),
      (neigh_remove bc g nl).1 = false → (neigh_remove bc g nl).2 = g := by
  induction nl with
  | nil => intro g bc _; rfl
  | cons n rest ih =>
    intro g bc h
    simp only [neigh_remove] at h ⊢
    split_ifs at h ⊢ with hc
    · rw [ih _ bc h, check_station_fail_eq _ _ _ _ _ (by simpa using hc)]

theorem neigh_remove_sum (nl : List ℕ) :
    ∀ (g : ℕ → Station) (bc : ℤ) (V : Finset ℕ),
      (∀ n ∈ nl, n ∈ V) → (neigh_remove bc g nl).1 = true →
      sumSpaces (neigh_remove bc g nl).2 V = sumSpaces g V + bc := by
  induction nl with
  | nil => intro g bc V _ h; simp [neigh_remove] at h
  | cons n rest ih =>
    intro g bc V hV h
    have hn : n ∈ V := hV n (List.mem_cons_self n rest)
    have hrest : ∀ x ∈ rest, x ∈ V := fun x hx => hV x (List.mem_cons_of_mem n hx)
    simp only [neigh_remove] at h ⊢
    split_ifs at h ⊢ with hc
    · exact check_station_sum_rem g n bc true V hn hc
    · rw [ih _ bc V hrest h,
        check_station_fail_eq _ _ _ _ _ (by simpa using hc)]

theorem am_rider_sum (clist : List (ℚ × ℕ)) (ccount : ℕ) (bc : ℤ) (neigh : ℕ → List ℕ)
    (g : ℕ → Station) (d : RiderDraw) (V : Finset ℕ)
    (hcc : 0 < ccount) (hlen : ccount + 1 < clist.length - 1)
    (hidx : ∀ i, i < clist.length → i ∈ V)
    (hcl : ∀ q ∈ clist, q.2 ∈ V)
    (hneigh : ∀ n m, m ∈ neigh n → m ∈ V) :
    sumSpaces (am_rider clist ccount bc neigh g d).2.2 V =
      sumSpaces g V - (am_rider clist ccount bc neigh g d).1 +
        (if (am_rider clist ccount bc neigh g d).2.1 = true then bc else 0) := by
  have hcV : ∀ k, randrange 0 ccount k ∈ V := by
    intro k
    apply hidx
    unfold randrange
    simp only [Nat.sub_zero, Nat.zero_add]
    have hlt : k % ccount < ccount := Nat.mod_lt _ hcc
    omega
  have hpV : ∀ k, randrange (ccount + 1) (clist.length - 1) k ∈ V := by
    intro k
    apply hidx
    have h0 : 0 < clist.length - 1 - (ccount + 1) := by omega
    have hlt := Nat.mod_lt k h0
    unfold randrange
    omega
  by_cases hbr : d.r ≤ (clist.getD ccount (0, 0)).1
  · by_cases hok : (check_station g (randrange 0 ccount d.k) bc true true).1 = true
    · have hr : am_rider clist ccount bc neigh g d =
          (bc,
           (neigh_remove bc (check_station g (randrange 0 ccount d.k) bc true true).2
             (neigh (randrange 0 ccount d.k))).1,
           (neigh_remove bc (check_station g (randrange 0 ccount d.k) bc true true).2
             (neigh (randrange 0 ccount d.k))).2) := by
        simp only [am_rider]
        rw [if_pos hbr, if_pos hok]
      rw [hr]
      dsimp only
      by_cases hwd : (neigh_remove bc (check_station g (randrange 0 ccount d.k) bc true true).2
          (neigh (randrange 0 ccount d.k))).1 = true
      · rw [if_pos hwd,
          neigh_remove_sum _ _ _ V (fun m hm => hneigh _ m hm) hwd,
          check_station_sum_add g _ bc true V (hcV d.k) hok]
        try ring
      · rw [if_neg hwd, neigh_remove_fail_eq _ _ _ (by simpa using hwd),
          check_station_sum_add g _ bc true V (hcV d.k) hok]
        try ring
    · have hr : am_rider clist ccount bc neigh g d =
          (bc - (add_bikes (check_station g (randrange 0 ccount d.k) bc true true).2
                  clist bc true).2.1,
           (neigh_remove bc
             (add_bikes (check_station g (randrange 0 ccount d.k) bc true true).2
               clist bc true).2.2 (neigh (randrange 0 ccount d.k))).1,
           (neigh_remove bc
             (add_bikes (check_station g (randrange 0 ccount d.k) bc true true).2
               clist bc true).2.2 (neigh (randrange 0 ccount d.k))).2) := by
        simp only [am_rider]
        rw [if_pos hbr, if_neg hok]
      rw [hr, check_station_fail_eq _ _ _ _ _ (by simpa using hok)]
      dsimp only
      by_cases hwd : (neigh_remove bc (add_bikes g clist bc true).2.2
          (neigh (randrange 0 ccount d.k))).1 = true
      · rw [if_pos hwd, neigh_remove_sum _ _ _ V (fun m hm => hneigh _ m hm) hwd,
          add_bikes_sum clist g bc true V hcl]
        try ring
      · rw [if_neg hwd, neigh_remove_fail_eq _ _ _ (by simpa using hwd),
          add_bikes_sum clist g bc true V hcl]
        try ring
  · by_cases hok : (check_station g (randrange (ccount + 1) (clist.length - 1) d.k)
        bc true true).1 = true
    · have hr : am_rider clist ccount bc neigh g d =
          (bc,
           (neigh_remove bc
             (check_station g (randrange (ccount + 1) (clist.length - 1) d.k) bc true true).2
             (neigh (randrange (ccount + 1) (clist.length - 1) d.k))).1,
           (neigh_remove bc
             (check_station g (randrange (ccount + 1) (clist.length - 1) d.k) bc true true).2
             (neigh (randrange (ccount + 1) (clist.length - 1) d.k))).2) := by
        simp only [am_rider]
        rw [if_neg hbr, if_pos hok]
      rw [hr]
      dsimp only
      by_cases hwd : (neigh_remove bc
          (check_station g (randrange (ccount + 1) (clist.length - 1) d.k) bc true true).2
          (neigh (randrange (ccount + 1) (clist.length - 1) d.k))).1 = true
      · rw [if_pos hwd, neigh_remove_sum _ _ _ V (fun m hm => hneigh _ m hm) hwd,
          check_station_sum_add g _ bc true V (hpV d.k) hok]
        try ring
      · rw [if_neg hwd, neigh_remove_fail_eq _ _ _ (by simpa using hwd),
          check_station_sum_add g _ bc true V (hpV d.k) hok]
        try ring
    · have hr : am_rider clist ccount bc neigh g d =
          ((0:ℤ),
           (neigh_remove bc
             (check_station g (randrange (ccount + 1) (clist.length - 1) d.k) bc true true).2
             (neigh (randrange (ccount + 1) (clist.length - 1) d.k))).1,
           (neigh_remove bc
             (check_station g (randrange (ccount + 1) (clist.length - 1) d.k) bc true true).2
             (neigh (randrange (ccount + 1) (clist.length - 1) d.k))).2) := by
        simp only [am_rider]
        rw [if_neg hbr, if_neg hok]
      rw [hr, check_station_fail_eq _ _ _ _ _ (by simpa using hok)]
      dsimp only
      by_cases hwd : (neigh_remove bc g
          (neigh (randrange (ccount + 1) (clist.length - 1) d.k))).1 = true
      · rw [if_pos hwd, neigh_remove_sum _ _ _ V (fun m hm => hneigh _ m hm) hwd]
        try ring
      · rw [if_neg hwd, neigh_remove_fail_eq _ _ _ (by simpa using hwd)]
        try ring

theorem am_cycle_run_sum (clist : List (ℚ × ℕ)) (ccount : ℕ) (bc : ℤ)
    (neigh : ℕ → List ℕ) (V : Finset ℕ)
    (hcc : 0 < ccount) (hlen : ccount + 1 < clist.length - 1)
    (hidx : ∀ i, i < clist.length → i ∈ V)
    (hcl : ∀ q ∈ clist, q.2 ∈ V)
    (hneigh : ∀ n m, m ∈ neigh n → m ∈ V) :
    ∀ (ds : List RiderDraw) (g : ℕ → Station),
      (∀ p ∈ (am_cycle_run clist ccount bc neigh g ds).1, p.1 = bc ∧ p.2 = true) →
      sumSpaces (am_cycle_run clist ccount bc neigh g ds).2 V = sumSpaces g V := by
  intro ds
  induction ds with
  | nil => intro g _; rfl
  | cons d rest ih =>
    intro g hmatch
    have hcons1 : (am_cycle_run clist ccount bc neigh g (d :: rest)).1 =
        ((am_rider clist ccount bc neigh g d).1,
         (am_rider clist ccount bc neigh g d).2.1) ::
          (am_cycle_run clist ccount bc neigh
            (am_rider clist ccount bc neigh g d).2.2 rest).1 := rfl
    have hcons2 : (am_cycle_run clist ccount bc neigh g (d :: rest)).2 =
        (am_cycle_run clist ccount bc neigh
          (am_rider clist ccount bc neigh g d).2.2 rest).2 := rfl
    have hhead := hmatch _ (hcons1 ▸ List.mem_cons_self _ _)
    have htail : ∀ p ∈ (am_cycle_run clist ccount bc neigh
        (am_rider clist ccount bc neigh g d).2.2 rest).1, p.1 = bc ∧ p.2 = true :=
      fun p hp => hmatch p (hcons1 ▸ List.mem_cons_of_mem _ hp)
    rw [hcons2, ih _ htail,
      am_rider_sum clist ccount bc neigh g d V hcc hlen hidx hcl hneigh,
      hhead.1, if_pos hhead.2]
    ring

/-- C3 amended: in the `dublin_bikes.py` variant (`am_cycle`), after
each rider's deposit phase the step attempts a one-bike release at the
neighbours of the chosen node in enumeration order, stopping at the
first neighbour where the release succeeds and doing nothing silently
if every neighbour fails; consequently, for any `am_cycle` step in
which every rider's deposit was fully placed and every rider's
neighbour withdrawal succeeded, the sum of bikes present over the
station set is unchanged across the step.  (The MIS40550 `bike_flow`
variant performs no release at all — see the counterexample.) -/
theorem am_cycle_closed_system :
    (∀ (g : ℕ → Station) (n : ℕ) (rest : List ℕ) (bc : ℤ),
       (check_station g n bc false true).1 = true →
       neigh_remove bc g (n :: rest) = (true, (check_station g n bc false true).2)) ∧
    (∀ (g : ℕ → Station) (nl : List ℕ) (bc : ℤ),
       (neigh_remove bc g nl).1 = false → (neigh_remove bc g nl).2 = g) ∧
    (∀ (clist : List (ℚ × ℕ)) (ccount : ℕ) (bc : ℤ) (neigh : ℕ → List ℕ)
       (V : Finset ℕ) (ds : List RiderDraw) (g : ℕ → Station),
       0 < ccount → ccount + 1 < clist.length - 1 →
       (∀ i, i < clist.length → i ∈ V) → (∀ q ∈ clist, q.2 ∈ V) →
       (∀ n m, m ∈ neigh n → m ∈ V) →
       (∀ p ∈ (am_cycle_run clist ccount bc neigh g ds).1, p.1 = bc ∧ p.2 = true) →
       sumBikes (am_cycle_run clist ccount bc neigh g ds).2 V = sumBikes g V) := by
  refine ⟨?_, fun g nl bc h => neigh_remove_fail_eq nl g bc h, ?_⟩
  · intro g n rest bc h
    simp only [neigh_remove]
    rw [if_pos h]
  · intro clist ccount bc neigh V ds g hcc hlen hidx hcl hneigh hmatch
    unfold sumBikes
    rw [Finset.sum_sub_distrib, Finset.sum_sub_distrib]
    have htot : ∑ n ∈ V, ((am_cycle_run clist ccount bc neigh g ds).2 n).total =
        ∑ n ∈ V, (g n).total :=
      Finset.sum_congr rfl (fun n _ => am_cycle_run_total_eq clist ccount bc neigh ds g n)
    have hsp := am_cycle_run_sum clist ccount bc neigh V hcc hlen hidx hcl hneigh ds g hmatch
    unfold sumSpaces at hsp
    rw [htot, hsp]

/-- C3 counterexample: in the MIS40550 variant (`bike_flow`, also cited
by the claim) a rider iteration attempts no release anywhere.  One
rider deposits a bike at station 0 (ranking head, centrality key 3);
its peer station 1 holds 5 spare bikes, so the claimed neighbour
release would succeed and keep the bike total constant — but the code
leaves station 1 untouched and the total bike count grows by 1. -/
theorem bike_flow_no_release_cex :
    ((bike_flow [((3:ℚ), 0), ((2:ℚ), 1)] 1 (fun _ => ⟨10, 5, 0, 0⟩) [⟨1, 0⟩]) 0).spaces = 4 ∧
    (bike_flow [((3:ℚ), 0), ((2:ℚ), 1)] 1 (fun _ => ⟨10, 5, 0, 0⟩) [⟨1, 0⟩]) 1 = ⟨10, 5, 0, 0⟩ ∧
    sumBikes (bike_flow [((3:ℚ), 0), ((2:ℚ), 1)] 1 (fun _ => ⟨10, 5, 0, 0⟩) [⟨1, 0⟩]) {0, 1} =
      sumBikes (fun _ => ⟨10, 5, 0, 0⟩) {0, 1} + 1 := by
  have h : bike_flow [((3:ℚ), 0), ((2:ℚ), 1)] 1 (fun _ => ⟨10, 5, 0, 0⟩) [⟨1, 0⟩] =
      Function.update (fun _ => (⟨10, 5, 0, 0⟩ : Station)) 0 ⟨10, 4, 0, 0⟩ := rfl
  rw [h]
  refine ⟨rfl, rfl, ?_⟩
  unfold sumBikes
  rw [Finset.sum_pair (by norm_num), Finset.sum_pair (by norm_num)]
  simp [Function.update_apply]

/-- C3 witness: a one-rider `am_cycle` step over four stations where the
deposit lands at station 0 and the withdrawal succeeds at its neighbour
1; bikes present are conserved. -/
theorem am_cycle_closed_system_witness :
    (0:ℕ) < 1 ∧
    sumBikes (am_cycle_run [((9:ℚ), 0), ((8:ℚ), 1), ((7:ℚ), 2), ((6:ℚ), 3)] 1 1
        (fun _ => [1]) (fun _ => ⟨10, 5, 0, 0⟩) [⟨1, 0⟩]).2 {0, 1, 2, 3} =
      sumBikes (fun _ => ⟨10, 5, 0, 0⟩) {0, 1, 2, 3} := by
  refine ⟨by norm_num, ?_⟩
  refine am_cycle_closed_system.2.2 [((9:ℚ), 0), ((8:ℚ), 1), ((7:ℚ), 2), ((6:ℚ), 3)] 1 1
    (fun _ => [1]) {0, 1, 2, 3} [⟨1, 0⟩] (fun _ => ⟨10, 5, 0, 0⟩)
    (by norm_num) (by norm_num) ?_ ?_ ?_ ?_
  · intro i hi
    simp only [List.length_cons, List.length_nil] at hi
    interval_cases i <;> decide
  · intro q hq
    fin_cases hq <;> decide
  · intro n m hm
    simp only [List.mem_singleton] at hm
    subst hm
    decide
  · intro p hp
    have ht : (am_cycle_run [((9:ℚ), 0), ((8:ℚ), 1), ((7:ℚ), 2), ((6:ℚ), 3)] 1 1
        (fun _ => [1]) (fun _ => ⟨10, 5, 0, 0⟩) [⟨1, 0⟩]).1 = [(1, true)] := rfl
    rw [ht] at hp
    simp only [List.mem_singleton] at hp
    subst hp
    exact ⟨rfl, rfl⟩

instance : IsTotal (ℚ × ℕ) pqLe :=
  ⟨fun a b => by
    unfold pqLe
    rcases lt_trichotomy a.1 b.1 with h | h | h
    · exact Or.inl (Or.inl h)
    · rcases le_total a.2 b.2 with h2 | h2
      · exact Or.inl (Or.inr ⟨h, h2⟩)
      · exact Or.inr (Or.inr ⟨h.symm, h2⟩)
    · exact Or.inr (Or.inl h)⟩

instance : IsTrans (ℚ × ℕ) pqLe :=
  ⟨fun a b c hab hbc => by
    unfold pqLe at *
    rcases hab with h | ⟨h1, h2⟩ <;> rcases hbc with h' | ⟨h1', h2'⟩
    · exact Or.inl (h.trans h')
    · exact Or.inl (h1' ▸ h)
    · exact Or.inl (h1 ▸ h')
    · exact Or.inr ⟨h1.trans h1', h2.trans h2'⟩⟩

theorem emptyq_mis_mem (cent : ℕ → ℚ) (g : ℕ → Station) (nodes : List ℕ) (n : ℕ) :
    n ∈ (emptyq_mis cent g nodes).map Prod.snd ↔
      n ∈ nodes ∧ (g n).spaces ≤ (g n).total / 10 := by
  unfold emptyq_mis heapOf
  rw [((List.perm_insertionSort pqLe _).map Prod.snd).mem_iff]
  simp [List.mem_map, List.mem_filter]

theorem emptyq_db_mem (cent : ℕ → ℚ) (g : ℕ → Station) (nodes : List ℕ) (n : ℕ) :
    n ∈ (emptyq_db cent g nodes).map Prod.snd ↔
      n ∈ nodes ∧ 1 ≤ (g n).empty := by
  unfold emptyq_db heapOf
  rw [((List.perm_insertionSort pqLe _).map Prod.snd).mem_iff]
  simp [List.mem_map, List.mem_filter]

theorem emptyq_mis_keys (cent : ℕ → ℚ) (g : ℕ → Station) (nodes : List ℕ)
    (p : ℚ × ℕ) (hp : p ∈ emptyq_mis cent g nodes) : p.1 = -(cent p.2) := by
  unfold emptyq_mis heapOf at hp
  rw [(List.perm_insertionSort pqLe _).mem_iff] at hp
  simp only [List.mem_map, List.mem_filter] at hp
  obtain ⟨a, _, ha⟩ := hp
  rw [← ha]

theorem emptyq_db_keys (cent : ℕ → ℚ) (g : ℕ → Station) (nodes : List ℕ)
    (p : ℚ × ℕ) (hp : p ∈ emptyq_db cent g nodes) : p.1 = -(cent p.2) := by
  unfold emptyq_db heapOf at hp
  rw [(List.perm_insertionSort pqLe _).mem_iff] at hp
  simp only [List.mem_map, List.mem_filter] at hp
  obtain ⟨a, _, ha⟩ := hp
  rw [← ha]

theorem emptyq_mis_sorted (cent : ℕ → ℚ) (g : ℕ → Station) (nodes : List ℕ) :
    List.Pairwise (fun a b : ℚ × ℕ => a.1 ≤ b.1) (emptyq_mis cent g nodes) := by
  refine List.Pairwise.imp ?_ (List.sorted_insertionSort pqLe _)
  intro a b hab
  rcases hab with h | ⟨h, _⟩
  · exact le_of_lt h
  · exact le_of_eq h

theorem emptyq_db_sorted (cent : ℕ → ℚ) (g : ℕ → Station) (nodes : List ℕ) :
    List.Pairwise (fun a b : ℚ × ℕ => a.1 ≤ b.1) (emptyq_db cent g nodes) := by
  refine List.Pairwise.imp ?_ (List.sorted_insertionSort pqLe _)
  intro a b hab
  rcases hab with h | ⟨h, _⟩
  · exact le_of_lt h
  · exact le_of_eq h

theorem truck_runs_mis_skip (num : ℤ) (runs : ℕ) (station : ℚ × ℕ)
    (q : List (ℚ × ℕ)) (fq : List (ℤ × ℕ)) (g : ℕ → Station)
    (h : (check_station g station.2 ((g station.2).total * num / 100) false false).1 = false) :
    truck_runs_mis num (runs + 1) (station :: q) fq g = truck_runs_mis num runs q fq g := by
  simp only [truck_runs_mis]
  rw [if_neg (by simp [h]), check_station_fail_eq _ _ _ _ _ h]

theorem truck_runs_db_skip (central_list : List (ℚ × ℕ)) (num : ℤ) (runs : ℕ)
    (station : ℚ × ℕ) (q : List (ℚ × ℕ)) (g : ℕ → Station)
    (h : (check_station g station.2 ((g station.2).total * num / 100) false false).1 = false) :
    truck_runs_db central_list num (runs + 1) (station :: q) g =
      truck_runs_db central_list num runs q g := by
  simp only [truck_runs_db]
  rw [if_neg (by simp [h]), check_station_fail_eq _ _ _ _ _ h]

/-- C7 counterexample: the claim says the rebalancing pass selects as
sources exactly the stations with `spaces_free ≤ total_capacity / 10`,
but the `dublin_bikes.py` variant instead selects stations whose
`empty` counter is positive: a station with 5 of 100 spaces free (well
under the 10% threshold) and `empty = 0` is not selected. -/
theorem bike_trucks_db_selection_cex :
    emptyq_db (fun _ => (1:ℚ)) (fun _ => ⟨100, 5, 0, 0⟩) [0] = [] ∧
    ((fun _ => (⟨100, 5, 0, 0⟩ : Station)) 0).spaces ≤
      ((fun _ => (⟨100, 5, 0, 0⟩ : Station)) 0).total / 10 := by
  exact ⟨rfl, by norm_num⟩

/-- C7 amended: the MIS40550 rebalancing pass selects as sources
exactly the stations with `spaces ≤ total // 10`, while the
`dublin_bikes.py` variant selects exactly the stations with a positive
`empty` counter; in both variants the source queue entries carry
negated centrality keys and pop in ascending key order — descending
centrality; each run pops the head, computes the quantity
`total * pct // 100`, and when the source release fails the run is
skipped with no retry and no station-state change. -/
theorem bike_trucks_algorithm :
    (∀ (cent : ℕ → ℚ) (g : ℕ → Station) (nodes : List ℕ) (n : ℕ),
      n ∈ (emptyq_mis cent g nodes).map Prod.snd ↔
        n ∈ nodes ∧ (g n).spaces ≤ (g n).total / 10) ∧
    (∀ (cent : ℕ → ℚ) (g : ℕ → Station) (nodes : List ℕ) (n : ℕ),
      n ∈ (emptyq_db cent g nodes).map Prod.snd ↔ n ∈ nodes ∧ 1 ≤ (g n).empty) ∧
    (∀ (cent : ℕ → ℚ) (g : ℕ → Station) (nodes : List ℕ) (p : ℚ × ℕ),
      (p ∈ emptyq_mis cent g nodes → p.1 = -(cent p.2)) ∧
      (p ∈ emptyq_db cent g nodes → p.1 = -(cent p.2))) ∧
    (∀ (cent : ℕ → ℚ) (g : ℕ → Station) (nodes : List ℕ),
      List.Pairwise (fun a b : ℚ × ℕ => a.1 ≤ b.1) (emptyq_mis cent g nodes) ∧
      List.Pairwise (fun a b : ℚ × ℕ => a.1 ≤ b.1) (emptyq_db cent g nodes)) ∧
    (∀ (num : ℤ) (runs : ℕ) (station : ℚ × ℕ) (q : List (ℚ × ℕ)) (fq : List (ℤ × ℕ))
        (g : ℕ → Station),
      (check_station g station.2 ((g station.2).total * num / 100) false false).1 = false →
      truck_runs_mis num (runs + 1) (station :: q) fq g = truck_runs_mis num runs q fq g) ∧
    (∀ (central_list : List (ℚ × ℕ)) (num : ℤ) (runs : ℕ) (station : ℚ × ℕ)
        (q : List (ℚ × ℕ)) (g : ℕ → Station),
      (check_station g station.2 ((g station.2).total * num / 100) false false).1 = false →
      truck_runs_db central_list num (runs + 1) (station :: q) g =
        truck_runs_db central_list num runs q g) :=
  ⟨emptyq_mis_mem, emptyq_db_mem,
   fun cent g nodes p => ⟨emptyq_mis_keys cent g nodes p, emptyq_db_keys cent g nodes p⟩,
   fun cent g nodes => ⟨emptyq_mis_sorted cent g nodes, emptyq_db_sorted cent g nodes⟩,
   truck_runs_mis_skip, truck_runs_db_skip⟩

/-- C7 witness: a failed source release (station drained to 0 bikes
cannot give up 5 bikes) skips the run with no state change. -/
theorem bike_trucks_algorithm_witness :
    (check_station (fun _ => ⟨10, 10, 0, 0⟩) 0 (((fun _ => (⟨10, 10, 0, 0⟩ : Station)) 0).total * 50 / 100)
        false false).1 = false ∧
    truck_runs_mis 50 1 [((-1 : ℚ), 0)] [] (fun _ => ⟨10, 10, 0, 0⟩) =
      truck_runs_mis 50 0 [] [] (fun _ => ⟨10, 10, 0, 0⟩) := by
  have h : (check_station (fun _ => ⟨10, 10, 0, 0⟩) 0
      (((fun _ => (⟨10, 10, 0, 0⟩ : Station)) 0).total * 50 / 100) false false).1 = false := rfl
  exact ⟨h, bike_trucks_algorithm.2.2.2.2.1 50 0 ((-1 : ℚ), 0) [] [] (fun _ => ⟨10, 10, 0, 0⟩) h⟩

/-- C8 counterexample: the claim says the rider's target is "the
station at a uniformly random ranking position".  With ranking
`[(9, 5), (2, 7), (1, 9)]` (station ids 5, 7, 9), boundary 1 and a
central draw of position 0, the MIS40550 selection (`bf_target`) indeed
targets station 5, but the `dublin_bikes.py` rider uses the drawn
position 0 itself as the node id: its deposit lands on station 0 —
which is not even in the ranking — and station 5 is untouched. -/
theorem am_cycle_target_cex :
    ((am_rider [((9:ℚ), 5), ((2:ℚ), 7), ((1:ℚ), 9)] 1 1 (fun _ => [])
        (fun _ => ⟨10, 5, 0, 0⟩) ⟨1, 0⟩).2.2 0).spaces = 4 ∧
    (am_rider [((9:ℚ), 5), ((2:ℚ), 7), ((1:ℚ), 9)] 1 1 (fun _ => [])
        (fun _ => ⟨10, 5, 0, 0⟩) ⟨1, 0⟩).2.2 5 = ⟨10, 5, 0, 0⟩ ∧
    bf_target [((9:ℚ), 5), ((2:ℚ), 7), ((1:ℚ), 9)] 1 1 0 = 5 ∧
    am_target [((9:ℚ), 5), ((2:ℚ), 7), ((1:ℚ), 9)] 1 1 0 = 0 := by
  have h : am_rider [((9:ℚ), 5), ((2:ℚ), 7), ((1:ℚ), 9)] 1 1 (fun _ => [])
      (fun _ => ⟨10, 5, 0, 0⟩) ⟨1, 0⟩ =
      (1, false, Function.update (fun _ => (⟨10, 5, 0, 0⟩ : Station)) 0 ⟨10, 4, 0, 0⟩) := rfl
  rw [h]
  exact ⟨rfl, rfl, rfl, rfl⟩

/-- C8 amended: the boundary index is the ranking length divided by the
centrality ratio; the random threshold `r` is compared with the
rank-key at the boundary index; if `r` is at most that key the drawn
position is uniform on `[0, boundary)`, else uniform on
`[boundary+1, length-1)` — strictly between the boundary and the last
ranking position, endpoints excluded; in the MIS40550 variant the
target is the station stored at the drawn ranking position, while in
the `dublin_bikes.py` variant the drawn position itself is used as the
node id. -/
theorem rider_target_selection :
    (∀ (clist : List (ℚ × ℕ)) (ratio : ℕ),
      get_centre_count clist ratio true = clist.length / ratio) ∧
    (∀ (clist : List (ℚ × ℕ)) (ccount : ℕ) (r : ℚ) (k : ℕ),
      (r ≤ (clist.getD ccount (0, 0)).1 →
        bf_target clist ccount r k = (clist.getD (randrange 0 ccount k) (0, 0)).2 ∧
        am_target clist ccount r k = randrange 0 ccount k) ∧
      (¬ r ≤ (clist.getD ccount (0, 0)).1 →
        bf_target clist ccount r k =
          (clist.getD (randrange (ccount + 1) (clist.length - 1) k) (0, 0)).2 ∧
        am_target clist ccount r k = randrange (ccount + 1) (clist.length - 1) k)) ∧
    (∀ (ccount k : ℕ), 0 < ccount → randrange 0 ccount k < ccount) ∧
    (∀ (ccount i : ℕ), i < ccount → ∃ k, randrange 0 ccount k = i) ∧
    (∀ (a b k : ℕ), a < b → a ≤ randrange a b k ∧ randrange a b k < b) ∧
    (∀ (a b i : ℕ), a ≤ i → i < b → ∃ k, randrange a b k = i) := by
  refine ⟨fun clist ratio => rfl, ?_, ?_, ?_, ?_, ?_⟩
  · intro clist ccount r k
    constructor
    · intro hr
      unfold bf_target am_target
      rw [if_pos hr, if_pos hr]
      exact ⟨rfl, rfl⟩
    · intro hr
      unfold bf_target am_target
      rw [if_neg hr, if_neg hr]
      exact ⟨rfl, rfl⟩
  · intro ccount k hc
    unfold randrange
    simp only [Nat.sub_zero, Nat.zero_add]
    exact Nat.mod_lt _ hc
  · intro ccount i hi
    refine ⟨i, ?_⟩
    unfold randrange
    simp [Nat.mod_eq_of_lt hi]
  · intro a b k hab
    unfold randrange
    have := Nat.mod_lt k (show 0 < b - a by omega)
    omega
  · intro a b i hai hib
    refine ⟨i - a, ?_⟩
    unfold randrange
    have hmod : (i - a) % (b - a) = i - a := Nat.mod_eq_of_lt (by omega)
    omega

/-- C8 witness: with boundary 1 and threshold below the boundary key,
the MIS40550 target is the head-ranking station 5, and position 0 is
reachable. -/
theorem rider_target_selection_witness :
    ((1:ℚ) ≤ ([((9:ℚ), 5), ((2:ℚ), 7), ((1:ℚ), 9)].getD 1 (0, 0)).1 ∧
      bf_target [((9:ℚ), 5), ((2:ℚ), 7), ((1:ℚ), 9)] 1 1 0 =
        ([((9:ℚ), 5), ((2:ℚ), 7), ((1:ℚ), 9)].getD (randrange 0 1 0) (0, 0)).2) ∧
    ((0:ℕ) < 1 ∧ randrange 0 1 0 < 1) := by
  have hr : (1:ℚ) ≤ ([((9:ℚ), 5), ((2:ℚ), 7), ((1:ℚ), 9)].getD 1 (0, 0)).1 := by
    norm_num
  exact ⟨⟨hr, (rider_target_selection.2.1 [((9:ℚ), 5), ((2:ℚ), 7), ((1:ℚ), 9)] 1 1 0).1 hr |>.1⟩,
    ⟨by norm_num, rider_target_selection.2.2.1 1 0 (by norm_num)⟩⟩

theorem move_bikes_k_nonpos (g : ℕ → Station) (l : List (ℚ × ℕ)) (k : ℤ)
    (person : Bool) (hk : k ≤ 0) : (move_bikes g l k person).2.2 = g := by
  cases l with
  | nil => rfl
  | cons p rest => rw [move_bikes_cons_done g p rest k person hk]

theorem move_bikes_first_space (g : ℕ → Station) (p : ℚ × ℕ) (rest : List (ℚ × ℕ))
    (person : Bool) (h0 : 0 < (g p.2).spaces) (hdup : p.2 ∉ rest.map Prod.snd) :
    ((move_bikes g (p :: rest) 1 person).2.2 p.2).spaces = (g p.2).spaces - 1 := by
  by_cases h3 : (g p.2).spaces ≤ 1
  · rw [move_bikes_cons_fill g p rest 1 person (by norm_num) (by omega) h3,
      move_bikes_not_mem rest _ _ _ _ hdup]
    cases person <;> simp [Function.update_same] <;> omega
  · rw [move_bikes_cons_part g p rest 1 person (by norm_num) h3,
      move_bikes_k_nonpos _ _ _ _ (le_refl 0), Function.update_same]

theorem move_bikes_no_space (l : List (ℚ × ℕ)) :
    ∀ (g : ℕ → Station) (k : ℤ) (person : Bool), ¬ k ≤ 0 →
      (∀ p ∈ l, (g p.2).spaces = 0) → move_bikes g l k person = (false, k, g) := by
  induction l with
  | nil => intro g k person _ _; rfl
  | cons p rest ih =>
    intro g k person hk hall
    rw [move_bikes_cons_zero g p rest k person hk (hall p (List.mem_cons_self p rest))]
    exact ih g k person hk (fun q hq => hall q (List.mem_cons_of_mem p hq))

/-- C9 counterexample: two failures of the claim.  First, in
`dublin_bikes.py` a peripheral rider whose deposit fails performs no
fallback scan at all: with stations 0,1,3 half free and the targeted
station 2 full, the rider leaves the whole store unchanged even though
station 0 has free space.  Second, when no station in a MIS40550
fallback scan has space the dropped bike is not counted: `move_bikes`
returns `False` with the state — counters included — identical. -/
theorem deposit_fallback_cex :
    (am_rider [((9:ℚ), 0), ((8:ℚ), 1), ((7:ℚ), 2), ((6:ℚ), 3)] 1 1 (fun _ => [])
        (fun n => if n = 2 then ⟨10, 0, 0, 0⟩ else ⟨10, 5, 0, 0⟩) ⟨10, 0⟩ =
      (0, false, fun n => if n = 2 then ⟨10, 0, 0, 0⟩ else ⟨10, 5, 0, 0⟩)) ∧
    ((fun n => if n = 2 then (⟨10, 0, 0, 0⟩ : Station) else ⟨10, 5, 0, 0⟩) 0).spaces = 5 ∧
    move_bikes (fun _ => ⟨10, 0, 3, 4⟩) [((9:ℚ), 0), ((8:ℚ), 1)] 1 true =
      (false, 1, fun _ => ⟨10, 0, 3, 4⟩) := by
  exact ⟨rfl, rfl, rfl⟩

/-- C9 amended: in the MIS40550 variant (`bike_flow`) a failed deposit
at the chosen station falls back to a `move_bikes` scan over the full
ranking (reversed ranking in the peripheral branch); in
`dublin_bikes.py` (`am_cycle`) only the central branch falls back (to
`add_bikes`), a failed peripheral deposit is simply dropped before the
neighbour loop.  The scan skips full stations and the first station
with free space receives the bike; if no station in the scan has space
the bike is dropped with the state — counters included — unchanged, the
scan returns `False`, and the step continues with no error
propagation. -/
theorem deposit_fallback :
    (∀ (clist : List (ℚ × ℕ)) (ccount : ℕ) (bc : ℤ) (g : ℕ → Station) (d : RiderDraw),
      d.r ≤ (clist.getD ccount (0, 0)).1 →
      (check_station g (clist.getD (randrange 0 ccount d.k) (0, 0)).2 bc true true).1 = false →
      bf_rider clist ccount bc g d = (move_bikes g clist bc true).2.2) ∧
    (∀ (clist : List (ℚ × ℕ)) (ccount : ℕ) (bc : ℤ) (g : ℕ → Station) (d : RiderDraw),
      ¬ d.r ≤ (clist.getD ccount (0, 0)).1 →
      (check_station g (clist.getD (randrange (ccount + 1) (clist.length - 1) d.k) (0, 0)).2
        bc true true).1 = false →
      bf_rider clist ccount bc g d = (move_bikes g (sortedRev clist) bc true).2.2) ∧
    (∀ (clist : List (ℚ × ℕ)) (ccount : ℕ) (bc : ℤ) (neigh : ℕ → List ℕ)
        (g : ℕ → Station) (d : RiderDraw),
      d.r ≤ (clist.getD ccount (0, 0)).1 →
      (check_station g (randrange 0 ccount d.k) bc true true).1 = false →
      (am_rider clist ccount bc neigh g d).1 = bc - (add_bikes g clist bc true).2.1 ∧
      (am_rider clist ccount bc neigh g d).2.2 =
        (neigh_remove bc (add_bikes g clist bc true).2.2
          (neigh (randrange 0 ccount d.k))).2) ∧
    (∀ (clist : List (ℚ × ℕ)) (ccount : ℕ) (bc : ℤ) (neigh : ℕ → List ℕ)
        (g : ℕ → Station) (d : RiderDraw),
      ¬ d.r ≤ (clist.getD ccount (0, 0)).1 →
      (check_station g (randrange (ccount + 1) (clist.length - 1) d.k) bc true true).1 = false →
      (am_rider clist ccount bc neigh g d).1 = 0 ∧
      (am_rider clist ccount bc neigh g d).2.2 =
        (neigh_remove bc g (neigh (randrange (ccount + 1) (clist.length - 1) d.k))).2) ∧
    (∀ (g : ℕ → Station) (p : ℚ × ℕ) (rest : List (ℚ × ℕ)) (k : ℤ) (person : Bool),
      ¬ k ≤ 0 → (g p.2).spaces = 0 →
      move_bikes g (p :: rest) k person = move_bikes g rest k person) ∧
    (∀ (g : ℕ → Station) (p : ℚ × ℕ) (rest : List (ℚ × ℕ)) (person : Bool),
      0 < (g p.2).spaces → p.2 ∉ rest.map Prod.snd →
      ((move_bikes g (p :: rest) 1 person).2.2 p.2).spaces = (g p.2).spaces - 1) ∧
    (∀ (g : ℕ → Station) (l : List (ℚ × ℕ)) (k : ℤ) (person : Bool),
      ¬ k ≤ 0 → (∀ p ∈ l, (g p.2).spaces = 0) →
      move_bikes g l k person = (false, k, g)) := by
  refine ⟨?_, ?_, ?_, ?_, move_bikes_cons_zero, move_bikes_first_space,
    fun g l k person hk hall => move_bikes_no_space l g k person hk hall⟩
  · intro clist ccount bc g d hr hfail
    simp only [bf_rider]
    rw [if_pos hr, if_neg (by rw [hfail]; simp), check_station_fail_eq _ _ _ _ _ hfail]
  · intro clist ccount bc g d hr hfail
    simp only [bf_rider]
    rw [if_neg hr, if_neg (by rw [hfail]; simp), check_station_fail_eq _ _ _ _ _ hfail]
  · intro clist ccount bc neigh g d hr hfail
    simp only [am_rider]
    rw [if_pos hr, if_neg (by simp [hfail]), check_station_fail_eq _ _ _ _ _ hfail]
    exact ⟨rfl, rfl⟩
  · intro clist ccount bc neigh g d hr hfail
    simp only [am_rider]
    rw [if_neg hr, if_neg (by simp [hfail]), check_station_fail_eq _ _ _ _ _ hfail]
    exact ⟨rfl, rfl⟩

/-- C9 witness: a whole-scan drop over two full stations returns
`False` with the store unchanged. -/
theorem deposit_fallback_witness :
    ¬ (1:ℤ) ≤ 0 ∧
    (∀ p ∈ [((9:ℚ), 0), ((8:ℚ), 1)],
      ((fun _ => (⟨10, 0, 3, 4⟩ : Station)) p.2).spaces = 0) ∧
    move_bikes (fun _ => ⟨10, 0, 3, 4⟩) [((9:ℚ), 0), ((8:ℚ), 1)] 1 true =
      (false, 1, fun _ => ⟨10, 0, 3, 4⟩) := by
  have hall : ∀ p ∈ [((9:ℚ), 0), ((8:ℚ), 1)],
      ((fun _ => (⟨10, 0, 3, 4⟩ : Station)) p.2).spaces = 0 := by
    intro p hp
    fin_cases hp <;> rfl
  exact ⟨by norm_num, hall,
    deposit_fallback.2.2.2.2.2.2 (fun _ => ⟨10, 0, 3, 4⟩) [((9:ℚ), 0), ((8:ℚ), 1)] 1 true
      (by norm_num) hall⟩
